import Mathlib

/-!
Verification development for the hexagonal-grid Chinese Checkers engine.

The definitions below are a shallow embedding of the game's core source
files: the hex coordinate model (src/core/types.js, hexUtils section), the
triangle/board generators and player configuration (src/core/config.js),
the board/game state (src/game/GameState.js, src/actors/BoardCell.js,
src/actors/Piece.js), per-player state (src/game/PlayerState.js), and the
move-generation engine (MoveCalculator in src/game).

Modelling conventions:
- JavaScript numbers used as integer coordinates become `Int`; counters and
  indices that are always non-negative become `Nat`.
- The board `Map` keyed by the canonical string key `q,r` becomes an
  association list keyed by the coordinate itself (the key is a lossless
  encoding of the coordinate pair, so keying by the coordinate is
  equivalent); `Map.get` becomes first-match lookup and `Map.set` becomes
  replace-first-or-append, which matches JavaScript `Map` semantics.
- The event emitter is modelled by returning the list of emitted events
  from the mutating operation.
- UI-only fields (colors, selection flag, canvas objects) are omitted; the
  spec itself marks them as out of scope.
-/

-- ============================================================================
-- HexPosition (src/core/types.js)
-- ============================================================================

structure HexPosition where
  q : Int
  r : Int
deriving DecidableEq, Repr

def HexPosition.add (a b : HexPosition) : HexPosition :=
  ⟨a.q + b.q, a.r + b.r⟩

def HexPosition.sub (a b : HexPosition) : HexPosition :=
  ⟨a.q - b.q, a.r - b.r⟩

def HexPosition.scale (a : HexPosition) (factor : Int) : HexPosition :=
  ⟨a.q * factor, a.r * factor⟩

/-- Rotate 60 degrees counter-clockwise. -/
def HexPosition.rotate60CCW (a : HexPosition) : HexPosition :=
  ⟨-a.r, a.q + a.r⟩

/-- Rotate 60 degrees clockwise. -/
def HexPosition.rotate60CW (a : HexPosition) : HexPosition :=
  ⟨a.q + a.r, -a.q⟩

/-- Rotate by n * 60 degrees counter-clockwise (a loop applying
`rotate60CCW` n times in the source). -/
def HexPosition.rotateN (a : HexPosition) : Nat → HexPosition
  | 0 => a
  | n + 1 => (a.rotateN n).rotate60CCW

/-- The six unit directions, in the source's iteration order
(EAST, NORTHEAST, NORTHWEST, WEST, SOUTHWEST, SOUTHEAST). -/
def HEX_DIRECTIONS : List HexPosition :=
  [⟨1, 0⟩, ⟨1, -1⟩, ⟨0, -1⟩, ⟨-1, 0⟩, ⟨-1, 1⟩, ⟨0, 1⟩]

-- ============================================================================
-- Moves (src/core/types.js)
-- ============================================================================

inductive MoveType where
  | move
  | jump
deriving DecidableEq, Repr

/-- MoveInfo: target, kind, and (for jumps) the chain of landing cells. -/
structure MoveInfo where
  targetPos : HexPosition
  moveType : MoveType
  jumpPath : List HexPosition
deriving DecidableEq, Repr

def createSimpleMove (targetPos : HexPosition) : MoveInfo :=
  ⟨targetPos, MoveType.move, []⟩

def createJumpMove (targetPos : HexPosition) (jumpPath : List HexPosition) : MoveInfo :=
  ⟨targetPos, MoveType.jump, jumpPath⟩

-- ============================================================================
-- Pieces and board cells (src/actors/Piece.js, src/actors/BoardCell.js)
-- ============================================================================

structure Piece where
  position : HexPosition
  ownerPlayerIndex : Nat
deriving DecidableEq, Repr

structure BoardCell where
  position : HexPosition
  homeIndex : Int
  piece : Option Piece
deriving DecidableEq, Repr

/-- The board: a `Map` from position key to `BoardCell`, modelled as an
association list (insertion order preserved, one entry per key). -/
abbrev GameBoard := List (HexPosition × BoardCell)

/-- `GameState.getBoardCell`: `Map.get`, i.e. first matching entry. -/
def getBoardCell (b : GameBoard) (pos : HexPosition) : Option BoardCell :=
  match b.find? (fun entry => entry.1 == pos) with
  | some entry => some entry.2
  | none => none

/-- `Map.set`: overwrite the existing entry for the key, else append. -/
def boardSet : GameBoard → HexPosition → BoardCell → GameBoard
  | [], pos, cell => [(pos, cell)]
  | entry :: rest, pos, cell =>
    if entry.1 == pos then (pos, cell) :: rest
    else entry :: boardSet rest pos cell

/-- `GameState.isPositionOnBoard`. -/
def isPositionOnBoard (b : GameBoard) (pos : HexPosition) : Bool :=
  (getBoardCell b pos).isSome

/-- `GameState.isPositionOccupied`: false (never an error) off board. -/
def isPositionOccupied (b : GameBoard) (pos : HexPosition) : Bool :=
  match getBoardCell b pos with
  | some cell => cell.piece.isSome
  | none => false

/-- `GameState.getPieceAt`. -/
def getPieceAt (b : GameBoard) (pos : HexPosition) : Option Piece :=
  match getBoardCell b pos with
  | some cell => cell.piece
  | none => none

-- ============================================================================
-- Triangle generation (src/core/config.js)
-- ============================================================================

namespace TriangleGenerator

/-- Base triangle shape (10 cells in 1-2-3-4 formation), defined relative to
the 12 o'clock position. -/
def baseTriangle : List HexPosition :=
  [⟨4, -8⟩,
   ⟨3, -7⟩, ⟨4, -7⟩,
   ⟨2, -6⟩, ⟨3, -6⟩, ⟨4, -6⟩,
   ⟨1, -5⟩, ⟨2, -5⟩, ⟨3, -5⟩, ⟨4, -5⟩]

/-- Generate a triangle rotated by N * 60 degrees clockwise from the base.
`rotateN` rotates CCW, so the source uses `(6 - n) % 6` to rotate CW instead.
(The source's rotation counts are 0..5, where Nat subtraction agrees with
JavaScript subtraction.) -/
def generateTriangle (rotationCount : Nat) : List HexPosition :=
  baseTriangle.map fun pos => pos.rotateN ((6 - rotationCount) % 6)

/-- Generate all 6 triangles in clockwise order from 12 o'clock. -/
def generateAllTriangles : List (List HexPosition) :=
  [0, 1, 2, 3, 4, 5].map generateTriangle

end TriangleGenerator

/-- `GameState.getTrianglePositions`: the source stores
`TriangleGenerator.generateAllTriangles()` in the `homeSpaces` field of every
`GameState` at construction and never reassigns it, so the lookup is a fixed
function of the triangle index. -/
def getTrianglePositions (triangleIndex : Nat) : List HexPosition :=
  TriangleGenerator.generateAllTriangles.getD triangleIndex []

/-- `GameState.initializeBoard`: central hexagon of radius 4 plus the six
triangular protrusions (cells only, no pieces). -/
def centerCells : List HexPosition :=
  (List.range 9).flatMap fun qi =>
    (List.range 9).filterMap fun ri =>
      let q : Int := (qi : Int) - 4
      let r : Int := (ri : Int) - 4
      if (-q - r).natAbs ≤ 4 then some ⟨q, r⟩ else none

def initializeBoard : GameBoard :=
  let withCenter := centerCells.foldl (fun b pos => boardSet b pos ⟨pos, -1, none⟩) []
  TriangleGenerator.generateAllTriangles.enum.foldl
    (fun b it => it.2.foldl (fun b pos => boardSet b pos ⟨pos, (it.1 : Int), none⟩) b)
    withCenter

-- ============================================================================
-- Game configuration (src/core/config.js)
-- ============================================================================

namespace GameConfig

/-- Triangle indices used for a given player count (JavaScript `switch` with
cases 2..5 and a default covering 6 and everything else). -/
def getPlayerTriangleIndices (playerCount : Nat) : List Nat :=
  if playerCount = 2 then [0, 3]
  else if playerCount = 3 then [1, 3, 5]
  else if playerCount = 4 then [0, 1, 3, 4]
  else if playerCount = 5 then [0, 1, 2, 3, 4]
  else [0, 1, 2, 3, 4, 5]

/-- The opposite triangle index (goal triangle). -/
def getGoalTriangleIndex (homeIndex : Nat) : Nat :=
  (homeIndex + 3) % 6

/-- Turn order starting from 6 o'clock, going clockwise. -/
def getTurnOrder (playerIndices : List Nat) : List Nat :=
  [3, 4, 5, 0, 1, 2].filter fun idx => playerIndices.contains idx

end GameConfig

-- ============================================================================
-- Player state (src/game/PlayerState.js)
-- ============================================================================

structure PlayerState where
  playerIndex : Nat
  homeTriangleIndex : Nat
  goalTriangleIndex : Nat
  piecePositions : List HexPosition
deriving DecidableEq, Repr

/-- The `PlayerState` constructor (display-only fields omitted): the goal
triangle is fixed to `(home + 3) % 6` and the position set starts empty. -/
def mkPlayerState (playerIndex homeTriangleIndex : Nat) : PlayerState :=
  ⟨playerIndex, homeTriangleIndex,
   GameConfig.getGoalTriangleIndex homeTriangleIndex, []⟩

/-- `Set.delete` on the position-key set (the set never holds duplicates). -/
def setDelete (l : List HexPosition) (k : HexPosition) : List HexPosition :=
  l.filter fun x => !(x == k)

/-- `Set.add` on the position-key set (no-op when already present). -/
def setAdd (l : List HexPosition) (k : HexPosition) : List HexPosition :=
  if k ∈ l then l else l ++ [k]

/-- `PlayerState.updatePiecePosition`: delete the old key, add the new one. -/
def updatePiecePosition (ps : PlayerState) (fromKey toKey : HexPosition) : PlayerState :=
  { ps with piecePositions := setAdd (setDelete ps.piecePositions fromKey) toKey }

-- ============================================================================
-- Game state (src/game/GameState.js)
-- ============================================================================

inductive MatchPhase where
  | WaitingToStart
  | InProgress
  | GameOver
deriving DecidableEq, Repr

/-- Events published through the `EventEmitter`; emissions are modelled as a
returned list. -/
inductive GameEvent where
  | pieceMoved (fromPos toPos : HexPosition) (piece : Piece)
  | turnChanged (playerIndex : Nat)
  | stateReset
deriving DecidableEq, Repr

structure GameState where
  board : GameBoard
  players : List PlayerState
  turnIndex : Nat
  turnOrder : List Nat
  matchPhase : MatchPhase
deriving DecidableEq, Repr

/-- `PlayerState.hasWon`: every cell of the goal triangle must hold a piece
owned by this player's home index. -/
def PlayerState.hasWon (ps : PlayerState) (gs : GameState) : Bool :=
  (getTrianglePositions ps.goalTriangleIndex).all fun pos =>
    match getBoardCell gs.board pos with
    | none => false
    | some cell =>
      match cell.piece with
      | none => false
      | some piece => piece.ownerPlayerIndex == ps.homeTriangleIndex

/-- `players.find(p => p.homeTriangleIndex === owner)` followed by an update
of the found player: update the first matching player, leave the rest. -/
def updateFirstPlayer : List PlayerState → Nat → HexPosition → HexPosition → List PlayerState
  | [], _, _, _ => []
  | p :: rest, owner, fromPos, toPos =>
    if p.homeTriangleIndex = owner then updatePiecePosition p fromPos toPos :: rest
    else p :: updateFirstPlayer rest owner fromPos toPos

/-- `GameState.movePiece`: fails unless `from` is an occupied cell and `to`
an unoccupied cell; on success relocates the piece (whose `position` field is
updated by `BoardCell.setPiece`), updates the owning player's key set, and
emits `pieceMoved`. -/
def movePiece (gs : GameState) (fromPos toPos : HexPosition) :
    Bool × GameState × List GameEvent :=
  match getBoardCell gs.board fromPos, getBoardCell gs.board toPos with
  | some fromCell, some toCell =>
    match fromCell.piece with
    | none => (false, gs, [])
    | some piece =>
      if toCell.piece.isSome then (false, gs, [])
      else
        let movedPiece := { piece with position := toPos }
        let board1 := boardSet gs.board fromPos { fromCell with piece := none }
        let board2 := boardSet board1 toPos { toCell with piece := some movedPiece }
        let players1 := updateFirstPlayer gs.players piece.ownerPlayerIndex fromPos toPos
        (true, { gs with board := board2, players := players1 },
          [GameEvent.pieceMoved fromPos toPos movedPiece])
  | _, _ => (false, gs, [])

-- ============================================================================
-- Move calculator (MoveCalculator in src/game)
-- ============================================================================

/-- The mutable `(visited, moves)` pair threaded through `_findMoves` and
`_checkJumpInDirection`. -/
structure SearchState where
  visited : List HexPosition
  moves : List MoveInfo
deriving DecidableEq, Repr

/-- The simple-adjacent-move check performed for each direction inside
`_findMoves`: push a step move when the adjacent cell is on-board and
unoccupied and no jump has been taken yet. -/
def stepCheck (b : GameBoard) (currentPos : HexPosition) (hasJumped : Bool)
    (dir : HexPosition) (st : SearchState) : SearchState :=
  let adjPos := currentPos.add dir
  if isPositionOnBoard b adjPos && !isPositionOccupied b adjPos && !hasJumped then
    { st with moves := st.moves ++ [createSimpleMove adjPos] }
  else st

/-- The scanning loop of `_checkJumpInDirection` (`while (distance <= 16)`),
with the loop budget made explicit: `remaining` counts the iterations still
allowed, so the source's loop is `scanGo … bound 1 none` with `bound = 16`.
`found` holds `pieceDistance` once the pivot has been seen.  The loop breaks
(returns `none`) at the first off-board cell, when the first occupied cell is
the original start position, and when a second occupied cell appears before
the landing distance; it returns the landing cell at exactly twice the pivot
distance when that cell is on-board and unoccupied. -/
def scanGo (b : GameBoard) (startPos currentPos dir : HexPosition) :
    Nat → Nat → Option Nat → Option HexPosition
  | 0, _, _ => none
  | remaining + 1, distance, found =>
    let checkPos := currentPos.add (dir.scale (distance : Int))
    if ¬ isPositionOnBoard b checkPos then none
    else
      let occ := isPositionOccupied b checkPos
      match found with
      | none =>
        if occ then
          if checkPos = startPos then none
          else scanGo b startPos currentPos dir remaining (distance + 1) (some distance)
        else scanGo b startPos currentPos dir remaining (distance + 1) none
      | some pieceDistance =>
        if occ then none
        else if distance = 2 * pieceDistance then some checkPos
        else scanGo b startPos currentPos dir remaining (distance + 1) (some pieceDistance)

/-- The scan with its bound as a parameter (for comparing against the
unbounded scan-until-off-board of the spec). -/
def jumpScanBound (b : GameBoard) (startPos currentPos dir : HexPosition)
    (bound : Nat) : Option HexPosition :=
  scanGo b startPos currentPos dir bound 1 none

/-- The scan as the source runs it: bound 16. -/
def scanJump (b : GameBoard) (startPos currentPos dir : HexPosition) : Option HexPosition :=
  jumpScanBound b startPos currentPos dir 16

/-- `_findMoves`: if the current landing spot was already visited, return;
otherwise mark it visited and, for each of the six directions, do the step
check and the jump check.  A successful jump check pushes the jump move and
recurses from the landing cell.

`fuel` makes the recursion structural: every recursive call is made at a
landing cell that is on-board and unvisited and that the callee immediately
marks visited, and cells are never unmarked, so the recursion depth never
exceeds the number of board cells plus one; `findValidMoves` passes
`b.length + 1`, which the depth can never reach, so the 0 case is
unreachable from the entry point. -/
def findMoves (b : GameBoard) (startPos : HexPosition) :
    Nat → HexPosition → Bool → List HexPosition → SearchState → SearchState
  | 0, _, _, _, st => st
  | fuel + 1, currentPos, hasJumped, currentPath, st =>
    if currentPos ∈ st.visited then st
    else
      HEX_DIRECTIONS.foldl
        (fun acc dir =>
          let acc1 := stepCheck b currentPos hasJumped dir acc
          match scanJump b startPos currentPos dir with
          | none => acc1
          | some landing =>
            if landing ∈ acc1.visited then acc1
            else
              findMoves b startPos fuel landing true (currentPath ++ [landing])
                { acc1 with moves := acc1.moves ++ [createJumpMove landing (currentPath ++ [landing])] })
        { st with visited := currentPos :: st.visited }

/-- `_checkJumpInDirection` as a standalone function: scan for a landing; if
one is found and not yet visited, push the jump move and recurse via
`_findMoves` (which marks the landing visited and explores onward).  The body
of the per-direction fold in `findMoves` is definitionally
`checkJumpInDirection … (stepCheck …)`. -/
def checkJumpInDirection (b : GameBoard) (startPos currentPos dir : HexPosition)
    (currentPath : List HexPosition) (fuel : Nat) (st : SearchState) : SearchState :=
  match scanJump b startPos currentPos dir with
  | none => st
  | some landing =>
    if landing ∈ st.visited then st
    else
      findMoves b startPos fuel landing true (currentPath ++ [landing])
        { st with moves := st.moves ++ [createJumpMove landing (currentPath ++ [landing])] }

/-- `MoveCalculator.findValidMoves`: run the exploration from the start
position with an empty visited set and no accumulated moves. -/
def findValidMoves (b : GameBoard) (startPos : HexPosition) : List MoveInfo :=
  (findMoves b startPos (b.length + 1) startPos false [] ⟨[], []⟩).moves

-- ============================================================================
-- The cell along a scan ray, and basic lemmas about the board lookup
-- ============================================================================

/-- The cell at the given distance from `p` along direction `dir`
(`currentPos.add(dir.scale(distance))` in the scan loop). -/
def rayCell (p dir : HexPosition) (k : Nat) : HexPosition :=
  p.add (dir.scale (k : Int))

-- ============================================================================
-- Arithmetic characterization of the generated board (the central hexagon
-- plus the six triangles), used to reason about scans on the real board
-- ============================================================================

/-- The on-board set of `initializeBoard`, described arithmetically: the
radius-4 central hexagon plus the six triangular wedges. -/
def realBoardSpec (p : HexPosition) : Prop :=
  (-4 ≤ p.q ∧ p.q ≤ 4 ∧ -4 ≤ p.r ∧ p.r ≤ 4 ∧ -4 ≤ p.q + p.r ∧ p.q + p.r ≤ 4) ∨
  (p.q ≤ 4 ∧ p.r ≤ -5 ∧ -4 ≤ p.q + p.r) ∨
  (-4 ≤ p.q ∧ -4 ≤ p.r ∧ p.q + p.r ≤ -5) ∨
  (p.q ≤ -5 ∧ p.r ≤ 4 ∧ -4 ≤ p.q + p.r) ∨
  (-4 ≤ p.q ∧ 5 ≤ p.r ∧ p.q + p.r ≤ 4) ∨
  (p.q ≤ 4 ∧ p.r ≤ 4 ∧ 5 ≤ p.q + p.r) ∨
  (5 ≤ p.q ∧ -4 ≤ p.r ∧ p.q + p.r ≤ 4)

instance realBoardSpec.dec : DecidablePred realBoardSpec := fun p => by
  unfold realBoardSpec; infer_instance

-- ============================================================================
-- Characterization of the jump scan
-- ============================================================================

/-- Both axial coordinates have the same parity. -/
def parityEq (a b : HexPosition) : Prop :=
  a.q % 2 = b.q % 2 ∧ a.r % 2 = b.r % 2

/-- The full set of conditions the scan loop actually enforces for a jump
over a pivot at distance `d` (note: every scanned cell must be on-board, and
the landing must fall within the loop bound of 16). -/
def fullJumpConditions (b : GameBoard) (startPos P dir : HexPosition) (d : Nat) : Prop :=
  1 ≤ d ∧ 2 * d ≤ 16 ∧
  (∀ k, 1 ≤ k → k < d →
    isPositionOnBoard b (rayCell P dir k) = true ∧
    isPositionOccupied b (rayCell P dir k) = false) ∧
  isPositionOnBoard b (rayCell P dir d) = true ∧
  isPositionOccupied b (rayCell P dir d) = true ∧
  rayCell P dir d ≠ startPos ∧
  (∀ k, d < k → k < 2 * d →
    isPositionOnBoard b (rayCell P dir k) = true ∧
    isPositionOccupied b (rayCell P dir k) = false) ∧
  isPositionOnBoard b (rayCell P dir (2 * d)) = true ∧
  isPositionOccupied b (rayCell P dir (2 * d)) = false

-- ============================================================================
-- Bookkeeping for the exploration: fuel accounting and state extension
-- ============================================================================

/-- Number of board keys not yet visited (with multiplicity; only strict
decrease matters).  The recursion depth of `_findMoves` is bounded by this
quantity, because every recursive call happens at an unvisited on-board
landing cell which is immediately marked visited. -/
def countUnvisited (b : GameBoard) (visited : List HexPosition) : Nat :=
  ((b.map Prod.fst).filter (fun p => !(decide (p ∈ visited)))).length

/-- The per-direction fold inside `_findMoves`, abstracted over the list of
directions still to process. -/
def dirFold (b : GameBoard) (startPos : HexPosition) (fuel : Nat) (currentPos : HexPosition)
    (hasJumped : Bool) (currentPath : List HexPosition) (dirs : List HexPosition)
    (st : SearchState) : SearchState :=
  dirs.foldl
    (fun acc dir => checkJumpInDirection b startPos currentPos dir currentPath fuel
      (stepCheck b currentPos hasJumped dir acc)) st

-- ============================================================================
-- The no-duplicate-targets invariant
-- ============================================================================

/-- Invariant carried through the exploration: accumulated moves have
pairwise distinct targets; every jump move's target is a visited cell with
the parity of the start; every step move's target is an adjacent cell of the
start that is on-board and unoccupied. -/
def searchInv (b : GameBoard) (startPos : HexPosition) (st : SearchState) : Prop :=
  List.Pairwise (fun m1 m2 => m1.targetPos ≠ m2.targetPos) st.moves ∧
  (∀ m ∈ st.moves, m.moveType = MoveType.jump →
    m.targetPos ∈ st.visited ∧ parityEq m.targetPos startPos) ∧
  (∀ m ∈ st.moves, m.moveType = MoveType.move →
    ∃ u ∈ HEX_DIRECTIONS, m.targetPos = startPos.add u ∧
      isPositionOnBoard b m.targetPos = true ∧ isPositionOccupied b m.targetPos = false)

/-- Step-move bookkeeping for the top-level fold: every step move already
recorded used a direction that is no longer pending. -/
def stepDirsInv (s : HexPosition) (dirs : List HexPosition) (st : SearchState) : Prop :=
  ∀ m ∈ st.moves, m.moveType = MoveType.move →
    ∃ u ∈ HEX_DIRECTIONS, u ∉ dirs ∧ m.targetPos = s.add u

/-- A small concrete board: a piece at the origin, a pivot piece east of it,
free cells beyond and south, and a second pivot south-east of the first
landing. -/
def demoBoard : GameBoard :=
  [(⟨0, 0⟩, ⟨⟨0, 0⟩, -1, some ⟨⟨0, 0⟩, 0⟩⟩),
   (⟨1, 0⟩, ⟨⟨1, 0⟩, -1, some ⟨⟨1, 0⟩, 1⟩⟩),
   (⟨2, 0⟩, ⟨⟨2, 0⟩, -1, none⟩),
   (⟨3, 0⟩, ⟨⟨3, 0⟩, -1, none⟩),
   (⟨0, 1⟩, ⟨⟨0, 1⟩, -1, none⟩),
   (⟨1, 1⟩, ⟨⟨1, 1⟩, -1, some ⟨⟨1, 1⟩, 1⟩⟩),
   (⟨2, 2⟩, ⟨⟨2, 2⟩, -1, none⟩)]

-- ============================================================================
-- Claim C2: the recording condition for a jump, and claims C3, C4
-- ============================================================================

/-- The conditions of claim C2 as the spec states them (`Jump symmetry`):
cells at distances `1..d-1` on-board and unoccupied, a pivot at `d` that is
on-board, occupied, and not the original start, cells at `d+1..2d-1`
unoccupied, and the landing at `2d` on-board and unoccupied.  (The spec's
wording does not require the intermediate cells `d+1..2d-1` to be on-board,
nor `2d` to fall within the loop bound; on the real board topology both
follow from the stated conditions.) -/
def specJumpConditions (b : GameBoard) (startPos P dir : HexPosition) (d : Nat) : Prop :=
  1 ≤ d ∧
  (∀ k, k < d → 1 ≤ k →
    isPositionOnBoard b (rayCell P dir k) = true ∧
    isPositionOccupied b (rayCell P dir k) = false) ∧
  isPositionOnBoard b (rayCell P dir d) = true ∧
  isPositionOccupied b (rayCell P dir d) = true ∧
  rayCell P dir d ≠ startPos ∧
  (∀ k, k < 2 * d → d < k → isPositionOccupied b (rayCell P dir k) = false) ∧
  isPositionOnBoard b (rayCell P dir (2 * d)) = true ∧
  isPositionOccupied b (rayCell P dir (2 * d)) = false

instance specJumpConditions.dec (b : GameBoard) (startPos P dir : HexPosition) (d : Nat) :
    Decidable (specJumpConditions b startPos P dir d) := by
  unfold specJumpConditions; infer_instance

/-- The real board with the querying piece at the origin and a pivot piece
east of it. -/
def realDemoBoard : GameBoard :=
  boardSet
    (boardSet initializeBoard ⟨0, 0⟩ ⟨⟨0, 0⟩, -1, some ⟨⟨0, 0⟩, 0⟩⟩)
    ⟨1, 0⟩ ⟨⟨1, 0⟩, -1, some ⟨⟨1, 0⟩, 3⟩⟩

/-- A mid-chain configuration: the moving piece's origin is at the origin
cell, the exploration has reached `(2, 0)`, and scanning west meets the
origin first. -/
def abortDemoBoard : GameBoard :=
  [(⟨0, 0⟩, ⟨⟨0, 0⟩, -1, some ⟨⟨0, 0⟩, 0⟩⟩),
   (⟨1, 0⟩, ⟨⟨1, 0⟩, -1, none⟩),
   (⟨2, 0⟩, ⟨⟨2, 0⟩, -1, none⟩)]

def demoGameState : GameState := ⟨[], [], 0, [], MatchPhase.WaitingToStart⟩

/-- A two-player, two-cell game state for exercising `movePiece`. -/
def moveDemoState : GameState :=
  ⟨[(⟨0, 0⟩, ⟨⟨0, 0⟩, -1, some ⟨⟨0, 0⟩, 0⟩⟩),
    (⟨1, 0⟩, ⟨⟨1, 0⟩, -1, none⟩)],
   [⟨0, 0, 3, [⟨0, 0⟩]⟩, ⟨1, 3, 0, []⟩],
   0, [3, 0], MatchPhase.InProgress⟩

-- ============================================================================
-- Theorems
-- ============================================================================

theorem rayCell_zero (p dir : HexPosition) : rayCell p dir 0 = p := by
  cases p; simp [rayCell, HexPosition.add, HexPosition.scale]

theorem rayCell_add (p dir : HexPosition) (a b : Nat) :
    rayCell p dir (a + b) = (rayCell p dir a).add (dir.scale (b : Int)) := by
  cases p; cases dir
  simp only [rayCell, HexPosition.add, HexPosition.scale, HexPosition.mk.injEq]
  push_cast
  constructor <;> ring

theorem rayCell_inj {dir : HexPosition} (hdir : dir ∈ HEX_DIRECTIONS) (p : HexPosition)
    {k1 k2 : Nat} (h : rayCell p dir k1 = rayCell p dir k2) : k1 = k2 := by
  cases p
  fin_cases hdir <;>
    (simp only [rayCell, HexPosition.add, HexPosition.scale, HexPosition.mk.injEq] at h <;> omega)

theorem onBoard_exists_entry (b : GameBoard) (p : HexPosition)
    (h : isPositionOnBoard b p = true) : ∃ e ∈ b, e.1 = p := by
  unfold isPositionOnBoard getBoardCell at h
  cases hf : b.find? (fun e => e.1 == p) with
  | none => rw [hf] at h; simp at h
  | some e =>
    refine ⟨e, List.mem_of_find?_eq_some hf, ?_⟩
    have := List.find?_some hf
    simpa using this

set_option maxHeartbeats 4000000 in
set_option maxRecDepth 10000 in
theorem realBoard_box_check : ∀ a : Fin 17, ∀ c : Fin 17,
    (isPositionOnBoard initializeBoard ⟨(a : Int) - 8, (c : Int) - 8⟩ = true ↔
      realBoardSpec ⟨(a : Int) - 8, (c : Int) - 8⟩) := by decide

set_option maxRecDepth 10000 in
theorem realBoard_entries_bound :
    ∀ e ∈ initializeBoard, -8 ≤ e.1.q ∧ e.1.q ≤ 8 ∧ -8 ≤ e.1.r ∧ e.1.r ≤ 8 := by decide

theorem realBoardSpec_bound (p : HexPosition) (h : realBoardSpec p) :
    -8 ≤ p.q ∧ p.q ≤ 8 ∧ -8 ≤ p.r ∧ p.r ≤ 8 := by
  unfold realBoardSpec at h; omega

/-- The generated board is exactly its arithmetic description. -/
theorem onBoard_initializeBoard_iff (p : HexPosition) :
    isPositionOnBoard initializeBoard p = true ↔ realBoardSpec p := by
  obtain ⟨q, r⟩ := p
  constructor
  · intro h
    obtain ⟨e, he, hep⟩ := onBoard_exists_entry _ _ h
    have hb := realBoard_entries_bound e he
    rw [hep] at hb
    simp only at hb
    have hbox := realBoard_box_check ⟨(q + 8).toNat, by omega⟩ ⟨(r + 8).toNat, by omega⟩
    have hq : (((q + 8).toNat : Int) - 8) = q := by omega
    have hr : (((r + 8).toNat : Int) - 8) = r := by omega
    simp only [Fin.val_mk] at hbox
    rw [hq, hr] at hbox
    exact hbox.mp h
  · intro h
    have hb := realBoardSpec_bound _ h
    simp only at hb
    have hbox := realBoard_box_check ⟨(q + 8).toNat, by omega⟩ ⟨(r + 8).toNat, by omega⟩
    have hq : (((q + 8).toNat : Int) - 8) = q := by omega
    have hr : (((r + 8).toNat : Int) - 8) = r := by omega
    simp only [Fin.val_mk] at hbox
    rw [hq, hr] at hbox
    exact hbox.mpr h

set_option maxHeartbeats 1600000 in
/-- The board is convex along every one of the six directions: cells between
two on-board cells of a ray are on-board. -/
theorem realBoardSpec_convex {u : HexPosition} (hu : u ∈ HEX_DIRECTIONS)
    (p : HexPosition) (m k : Int) (h0 : 0 ≤ k) (hkm : k ≤ m)
    (hp : realBoardSpec p) (hm : realBoardSpec (p.add (u.scale m))) :
    realBoardSpec (p.add (u.scale k)) := by
  obtain ⟨q, r⟩ := p
  fin_cases hu <;>
    (simp only [realBoardSpec, HexPosition.add, HexPosition.scale] at hp hm ⊢ <;> omega)

set_option maxHeartbeats 1600000 in
/-- Two on-board cells of a ray are at most 16 steps apart. -/
theorem realBoardSpec_gap {u : HexPosition} (hu : u ∈ HEX_DIRECTIONS)
    (p : HexPosition) (a b : Int) (hab : a ≤ b)
    (ha : realBoardSpec (p.add (u.scale a))) (hb : realBoardSpec (p.add (u.scale b))) :
    b - a ≤ 16 := by
  obtain ⟨q, r⟩ := p
  fin_cases hu <;>
    (simp only [realBoardSpec, HexPosition.add, HexPosition.scale] at ha hb <;> omega)

set_option maxHeartbeats 1600000 in
/-- From any on-board cell, the cell 17 steps away along any direction is off
the board. -/
theorem realBoardSpec_step17 {u : HexPosition} (hu : u ∈ HEX_DIRECTIONS)
    (p : HexPosition) (hp : realBoardSpec p) :
    ¬ realBoardSpec (p.add (u.scale 17)) := by
  obtain ⟨q, r⟩ := p
  fin_cases hu <;>
    (simp only [realBoardSpec, HexPosition.add, HexPosition.scale] at hp ⊢ <;> omega)

theorem parityEq_refl (a : HexPosition) : parityEq a a := ⟨rfl, rfl⟩

theorem parityEq_trans {a b c : HexPosition} (h1 : parityEq a b) (h2 : parityEq b c) :
    parityEq a c := ⟨h1.1.trans h2.1, h1.2.trans h2.2⟩

/-- No unit direction preserves parity: a step target never has the parity of
the cell it steps from. -/
theorem parityEq_not_dir {u : HexPosition} (hu : u ∈ HEX_DIRECTIONS) (p : HexPosition) :
    ¬ parityEq (p.add u) p := by
  obtain ⟨q, r⟩ := p
  fin_cases hu <;>
    (simp only [parityEq, HexPosition.add] at * <;> omega)

/-- A cell an even number of steps along a ray has the parity of the base. -/
theorem rayCell_even_parity (P dir : HexPosition) (pd : Nat) :
    parityEq (rayCell P dir (2 * pd)) P := by
  obtain ⟨q, r⟩ := P
  obtain ⟨dq, dr⟩ := dir
  simp only [rayCell, parityEq, HexPosition.add, HexPosition.scale]
  push_cast
  have hq : q + dq * (2 * (pd : Int)) = q + 2 * (dq * pd) := by ring
  have hr : r + dr * (2 * (pd : Int)) = r + 2 * (dr * pd) := by ring
  rw [hq, hr]
  constructor
  · generalize dq * (pd : Int) = m; omega
  · generalize dr * (pd : Int) = m; omega

/-- One unfolding step of the scan loop before the pivot has been found,
stated over `rayCell`. -/
theorem scanGo_succ_none (b : GameBoard) (s P dir : HexPosition) (r dist : Nat) :
    scanGo b s P dir (r + 1) dist none =
      if isPositionOnBoard b (rayCell P dir dist) = true then
        (if isPositionOccupied b (rayCell P dir dist) = true then
          (if rayCell P dir dist = s then none
           else scanGo b s P dir r (dist + 1) (some dist))
         else scanGo b s P dir r (dist + 1) none)
      else none := by
  rw [scanGo]
  simp only [rayCell]
  cases h : isPositionOnBoard b (P.add (dir.scale (dist : Int))) <;> simp [h]

/-- One unfolding step of the scan loop after the pivot has been found. -/
theorem scanGo_succ_some (b : GameBoard) (s P dir : HexPosition) (r dist pd : Nat) :
    scanGo b s P dir (r + 1) dist (some pd) =
      if isPositionOnBoard b (rayCell P dir dist) = true then
        (if isPositionOccupied b (rayCell P dir dist) = true then none
         else if dist = 2 * pd then some (rayCell P dir dist)
         else scanGo b s P dir r (dist + 1) (some pd))
      else none := by
  rw [scanGo]
  simp only [rayCell]
  cases h : isPositionOnBoard b (P.add (dir.scale (dist : Int))) <;> simp [h]

/-- Forward characterization of the scan after the pivot has been found:
a `some` result is the landing at exactly twice the pivot distance, with all
cells strictly between the current distance and the landing on-board and
unoccupied, and the landing on-board and unoccupied. -/
theorem scanGo_phase2_some (b : GameBoard) (s P dir : HexPosition) :
    ∀ (r dist pd : Nat) (L : HexPosition),
      scanGo b s P dir r dist (some pd) = some L →
      dist ≤ 2 * pd ∧ 2 * pd < dist + r ∧
      (∀ k, dist ≤ k → k < 2 * pd →
        isPositionOnBoard b (rayCell P dir k) = true ∧
        isPositionOccupied b (rayCell P dir k) = false) ∧
      isPositionOnBoard b (rayCell P dir (2 * pd)) = true ∧
      isPositionOccupied b (rayCell P dir (2 * pd)) = false ∧
      L = rayCell P dir (2 * pd) := by
  intro r
  induction r with
  | zero => intro dist pd L h; simp [scanGo] at h
  | succ r ih =>
    intro dist pd L h
    rw [scanGo_succ_some] at h
    by_cases hob : isPositionOnBoard b (rayCell P dir dist) = true
    · rw [if_pos hob] at h
      by_cases hocc : isPositionOccupied b (rayCell P dir dist) = true
      · rw [if_pos hocc] at h; exact absurd h (by simp)
      · rw [if_neg hocc] at h
        have hoccf : isPositionOccupied b (rayCell P dir dist) = false := by
          simpa using hocc
        by_cases hdd : dist = 2 * pd
        · subst hdd
          rw [if_pos rfl] at h
          obtain rfl := Option.some.inj h
          exact ⟨le_refl _, by omega, fun k hk1 hk2 => by omega, hob, hoccf, rfl⟩
        · rw [if_neg hdd] at h
          obtain ⟨h1, h2, h3, h4, h5, h6⟩ := ih (dist + 1) pd L h
          refine ⟨by omega, by omega, ?_, h4, h5, h6⟩
          intro k hk1 hk2
          rcases Nat.eq_or_lt_of_le hk1 with rfl | hk
          · exact ⟨hob, hoccf⟩
          · exact h3 k (by omega) hk2
    · rw [if_neg hob] at h; exact absurd h (by simp)

/-- Forward characterization of the whole scan: a `some` result exhibits a
pivot distance with all the cell conditions the loop checks on the way. -/
theorem scanGo_phase1_some (b : GameBoard) (s P dir : HexPosition) :
    ∀ (r dist : Nat) (L : HexPosition), 1 ≤ dist →
      scanGo b s P dir r dist none = some L →
      ∃ pd, dist ≤ pd ∧ 2 * pd < dist + r ∧
        (∀ k, dist ≤ k → k < pd →
          isPositionOnBoard b (rayCell P dir k) = true ∧
          isPositionOccupied b (rayCell P dir k) = false) ∧
        isPositionOnBoard b (rayCell P dir pd) = true ∧
        isPositionOccupied b (rayCell P dir pd) = true ∧
        rayCell P dir pd ≠ s ∧
        (∀ k, pd < k → k < 2 * pd →
          isPositionOnBoard b (rayCell P dir k) = true ∧
          isPositionOccupied b (rayCell P dir k) = false) ∧
        isPositionOnBoard b (rayCell P dir (2 * pd)) = true ∧
        isPositionOccupied b (rayCell P dir (2 * pd)) = false ∧
        L = rayCell P dir (2 * pd) := by
  intro r
  induction r with
  | zero => intro dist L hdist h; simp [scanGo] at h
  | succ r ih =>
    intro dist L hdist h
    rw [scanGo_succ_none] at h
    by_cases hob : isPositionOnBoard b (rayCell P dir dist) = true
    · rw [if_pos hob] at h
      by_cases hocc : isPositionOccupied b (rayCell P dir dist) = true
      · rw [if_pos hocc] at h
        by_cases hs : rayCell P dir dist = s
        · rw [if_pos hs] at h; exact absurd h (by simp)
        · rw [if_neg hs] at h
          obtain ⟨h1, h2, h3, h4, h5, h6⟩ := scanGo_phase2_some b s P dir r (dist + 1) dist L h
          refine ⟨dist, le_refl _, by omega, fun k hk1 hk2 => by omega,
            hob, hocc, hs, ?_, h4, h5, h6⟩
          intro k hk1 hk2
          exact h3 k (by omega) hk2
      · rw [if_neg hocc] at h
        have hoccf : isPositionOccupied b (rayCell P dir dist) = false := by
          simpa using hocc
        obtain ⟨pd, h1, h2, h3, h4, h5, h6, h7, h8, h9, h10⟩ := ih (dist + 1) L (by omega) h
        refine ⟨pd, by omega, by omega, ?_, h4, h5, h6, h7, h8, h9, h10⟩
        intro k hk1 hk2
        rcases Nat.eq_or_lt_of_le hk1 with rfl | hk
        · exact ⟨hob, hoccf⟩
        · exact h3 k (by omega) hk2
    · rw [if_neg hob] at h; exact absurd h (by simp)

/-- Completeness of the scan after the pivot: if the cells up to the landing
are on-board and unoccupied and there is enough loop budget, the scan reaches
the landing. -/
theorem scanGo_phase2_complete (b : GameBoard) (s P dir : HexPosition) :
    ∀ (r dist pd : Nat),
      dist ≤ 2 * pd → 2 * pd < dist + r →
      (∀ k, dist ≤ k → k < 2 * pd →
        isPositionOnBoard b (rayCell P dir k) = true ∧
        isPositionOccupied b (rayCell P dir k) = false) →
      isPositionOnBoard b (rayCell P dir (2 * pd)) = true →
      isPositionOccupied b (rayCell P dir (2 * pd)) = false →
      scanGo b s P dir r dist (some pd) = some (rayCell P dir (2 * pd)) := by
  intro r
  induction r with
  | zero => intro dist pd h1 h2 _ _ _; omega
  | succ r ih =>
    intro dist pd h1 h2 hrange hob hocc
    rw [scanGo_succ_some]
    by_cases hdd : dist = 2 * pd
    · subst hdd
      rw [if_pos hob, if_neg (by simp [hocc]), if_pos rfl]
    · have hcur := hrange dist (le_refl _) (by omega)
      rw [if_pos hcur.1, if_neg (by simp [hcur.2]), if_neg hdd]
      exact ih (dist + 1) pd (by omega) (by omega)
        (fun k hk1 hk2 => hrange k (by omega) hk2) hob hocc

/-- Completeness of the whole scan: if a pivot with clear approach, clear
middle cells, and a free on-board landing lies within the loop budget, the
scan returns that landing. -/
theorem scanGo_phase1_complete (b : GameBoard) (s P dir : HexPosition) :
    ∀ (r dist pd : Nat), 1 ≤ dist →
      dist ≤ pd → 2 * pd < dist + r →
      (∀ k, dist ≤ k → k < pd →
        isPositionOnBoard b (rayCell P dir k) = true ∧
        isPositionOccupied b (rayCell P dir k) = false) →
      isPositionOnBoard b (rayCell P dir pd) = true →
      isPositionOccupied b (rayCell P dir pd) = true →
      rayCell P dir pd ≠ s →
      (∀ k, pd < k → k < 2 * pd →
        isPositionOnBoard b (rayCell P dir k) = true ∧
        isPositionOccupied b (rayCell P dir k) = false) →
      isPositionOnBoard b (rayCell P dir (2 * pd)) = true →
      isPositionOccupied b (rayCell P dir (2 * pd)) = false →
      scanGo b s P dir r dist none = some (rayCell P dir (2 * pd)) := by
  intro r
  induction r with
  | zero => intro dist pd h0 h1 h2 _ _ _ _ _ _ _; omega
  | succ r ih =>
    intro dist pd h0 h1 h2 happr hpob hpocc hps hmid hob hocc
    rw [scanGo_succ_none]
    by_cases hdp : dist = pd
    · subst hdp
      rw [if_pos hpob, if_pos hpocc, if_neg hps]
      exact scanGo_phase2_complete b s P dir r (dist + 1) dist (by omega) (by omega)
        (fun k hk1 hk2 => hmid k (by omega) hk2) hob hocc
    · have hcur := happr dist (le_refl _) (by omega)
      rw [if_pos hcur.1, if_neg (by simp [hcur.2])]
      exact ih (dist + 1) pd (by omega) (by omega) (by omega)
        (fun k hk1 hk2 => happr k (by omega) hk2) hpob hpocc hps hmid hob hocc

/-- The scan finds the landing at distance `2 d` exactly when the full
conditions hold. -/
theorem scanJump_eq_some_iff (b : GameBoard) (startPos P dir : HexPosition)
    (hdir : dir ∈ HEX_DIRECTIONS) (d : Nat) (hd : 1 ≤ d) :
    scanJump b startPos P dir = some (rayCell P dir (2 * d)) ↔
      fullJumpConditions b startPos P dir d := by
  constructor
  · intro h
    obtain ⟨pd, h1, h2, h3, h4, h5, h6, h7, h8, h9, h10⟩ :=
      scanGo_phase1_some b startPos P dir 16 1 _ (le_refl _) h
    obtain rfl : pd = d := by
      have := rayCell_inj hdir P h10.symm
      omega
    exact ⟨h1, by omega, h3, h4, h5, h6, h7, h8, h9⟩
  · intro ⟨h1, h2, h3, h4, h5, h6, h7, h8, h9⟩
    exact scanGo_phase1_complete b startPos P dir 16 1 d (le_refl _) h1 (by omega)
      h3 h4 h5 h6 h7 h8 h9

/-- Any landing the scan returns is on-board, unoccupied, and an even number
of steps along the ray (hence parity-equal to the scanned-from cell). -/
theorem scanJump_some_facts (b : GameBoard) (startPos P dir : HexPosition) (L : HexPosition)
    (h : scanJump b startPos P dir = some L) :
    parityEq L P ∧ isPositionOnBoard b L = true ∧ isPositionOccupied b L = false := by
  obtain ⟨pd, h1, h2, h3, h4, h5, h6, h7, h8, h9, h10⟩ :=
    scanGo_phase1_some b startPos P dir 16 1 L (le_refl _) h
  subst h10
  exact ⟨rayCell_even_parity P dir pd, h8, h9⟩

/-- The loop bound is irrelevant once some cell of the ray within both
budgets is off the board: both scans stop there (or earlier) with identical
results. -/
theorem scanGo_congr_of_offboard (b : GameBoard) (s P dir : HexPosition) :
    ∀ (r1 : Nat), ∀ (r2 dist koff : Nat), ∀ (found : Option Nat),
      dist ≤ koff → koff ≤ dist + r1 → koff ≤ dist + r2 →
      isPositionOnBoard b (rayCell P dir koff) = false →
      scanGo b s P dir r1 dist found = scanGo b s P dir r2 dist found := by
  intro r1
  induction r1 with
  | zero =>
    intro r2 dist koff found hk1 hk2 hk3 hoff
    obtain rfl : koff = dist := by omega
    cases r2 with
    | zero => rfl
    | succ r2 =>
      rcases found with _ | pd
      · rw [scanGo_succ_none, if_neg (by simp [hoff]), scanGo]
      · rw [scanGo_succ_some, if_neg (by simp [hoff]), scanGo]
  | succ r1 ih =>
    intro r2 dist koff found hk1 hk2 hk3 hoff
    cases r2 with
    | zero =>
      obtain rfl : koff = dist := by omega
      rcases found with _ | pd
      · rw [scanGo_succ_none, if_neg (by simp [hoff]), scanGo]
      · rw [scanGo_succ_some, if_neg (by simp [hoff]), scanGo]
    | succ r2 =>
      by_cases hob : isPositionOnBoard b (rayCell P dir dist) = true
      · have hne : dist ≠ koff := fun hdk => by rw [hdk, hoff] at hob; exact absurd hob (by simp)
        rcases found with _ | pd
        · rw [scanGo_succ_none, scanGo_succ_none, if_pos hob, if_pos hob]
          by_cases hocc : isPositionOccupied b (rayCell P dir dist) = true
          · rw [if_pos hocc, if_pos hocc]
            by_cases hs : rayCell P dir dist = s
            · rw [if_pos hs, if_pos hs]
            · rw [if_neg hs, if_neg hs]
              exact ih r2 (dist + 1) koff (some dist) (by omega) (by omega) (by omega) hoff
          · rw [if_neg hocc, if_neg hocc]
            exact ih r2 (dist + 1) koff none (by omega) (by omega) (by omega) hoff
        · rw [scanGo_succ_some, scanGo_succ_some, if_pos hob, if_pos hob]
          by_cases hocc : isPositionOccupied b (rayCell P dir dist) = true
          · rw [if_pos hocc, if_pos hocc]
          · rw [if_neg hocc, if_neg hocc]
            by_cases hdd : dist = 2 * pd
            · rw [if_pos hdd, if_pos hdd]
            · rw [if_neg hdd, if_neg hdd]
              exact ih r2 (dist + 1) koff (some pd) (by omega) (by omega) (by omega) hoff
      · rcases found with _ | pd
        · rw [scanGo_succ_none, scanGo_succ_none, if_neg hob, if_neg hob]
        · rw [scanGo_succ_some, scanGo_succ_some, if_neg hob, if_neg hob]

theorem countUnvisited_anti (b : GameBoard) (v v' : List HexPosition)
    (h : ∀ y ∈ v, y ∈ v') : countUnvisited b v' ≤ countUnvisited b v := by
  apply List.Sublist.length_le
  apply List.monotone_filter_right
  intro a ha
  simp only [Bool.not_eq_true', decide_eq_false_iff_not] at ha ⊢
  intro hmem
  exact ha (h a hmem)

theorem countUnvisited_cons_lt (b : GameBoard) {x : HexPosition} {v : List HexPosition}
    (hob : isPositionOnBoard b x = true) (hx : x ∉ v) :
    countUnvisited b (x :: v) < countUnvisited b v := by
  have hkey : x ∈ b.map Prod.fst := by
    obtain ⟨e, he, rfl⟩ := onBoard_exists_entry b x hob
    exact List.mem_map_of_mem _ he
  have hsub : ((b.map Prod.fst).filter (fun p => !(decide (p ∈ x :: v)))).Sublist
      ((b.map Prod.fst).filter (fun p => !(decide (p ∈ v)))) := by
    apply List.monotone_filter_right
    intro a ha
    simp only [Bool.not_eq_true', decide_eq_false_iff_not, List.mem_cons] at ha ⊢
    intro hmem
    exact ha (Or.inr hmem)
  rcases Nat.lt_or_ge ((List.filter (fun p => !(decide (p ∈ x :: v))) (b.map Prod.fst)).length)
      ((List.filter (fun p => !(decide (p ∈ v))) (b.map Prod.fst)).length) with hlt | hge
  · exact hlt
  · exfalso
    have heq := hsub.eq_of_length_le hge
    have hxin : x ∈ (b.map Prod.fst).filter (fun p => !(decide (p ∈ v))) := by
      simp only [List.mem_filter, Bool.not_eq_true', decide_eq_false_iff_not]
      exact ⟨hkey, hx⟩
    rw [← heq] at hxin
    simp only [List.mem_filter, Bool.not_eq_true', decide_eq_false_iff_not,
      List.mem_cons] at hxin
    exact hxin.2 (Or.inl trivial)

/-- `stepCheck` does nothing once a jump has been taken. -/
theorem stepCheck_hasJumped (b : GameBoard) (cur dir : HexPosition) (st : SearchState) :
    stepCheck b cur true dir st = st := by
  simp [stepCheck]

theorem dirFold_nil (b : GameBoard) (s : HexPosition) (fuel : Nat) (cur : HexPosition)
    (hj : Bool) (path : List HexPosition) (st : SearchState) :
    dirFold b s fuel cur hj path [] st = st := rfl

theorem dirFold_cons (b : GameBoard) (s : HexPosition) (fuel : Nat) (cur : HexPosition)
    (hj : Bool) (path : List HexPosition) (dir : HexPosition) (rest : List HexPosition)
    (st : SearchState) :
    dirFold b s fuel cur hj path (dir :: rest) st =
      dirFold b s fuel cur hj path rest
        (checkJumpInDirection b s cur dir path fuel (stepCheck b cur hj dir st)) := rfl

/-- Unfolding `_findMoves` at positive fuel: the visited check, the insertion
of the current cell, and the fold over the six directions. -/
theorem findMoves_succ (b : GameBoard) (s : HexPosition) (fuel : Nat) (cur : HexPosition)
    (hj : Bool) (path : List HexPosition) (st : SearchState) :
    findMoves b s (fuel + 1) cur hj path st =
      if cur ∈ st.visited then st
      else dirFold b s fuel cur hj path HEX_DIRECTIONS ⟨cur :: st.visited, st.moves⟩ := by
  rfl

/-- The exploration only extends the state: visited cells are prepended and
moves are appended. -/
theorem findMoves_extends (b : GameBoard) (s : HexPosition) :
    ∀ (fuel : Nat) (cur : HexPosition) (hj : Bool) (path : List HexPosition) (st : SearchState),
      ∃ vl tl, findMoves b s fuel cur hj path st = ⟨vl ++ st.visited, st.moves ++ tl⟩ := by
  intro fuel
  induction fuel with
  | zero => intro cur hj path st; exact ⟨[], [], by simp [findMoves]⟩
  | succ fuel ih =>
    intro cur hj path st
    rw [findMoves_succ]
    by_cases hv : cur ∈ st.visited
    · rw [if_pos hv]; exact ⟨[], [], by simp⟩
    · rw [if_neg hv]
      have hfold : ∀ (dirs : List HexPosition) (acc : SearchState),
          ∃ vl tl, dirFold b s fuel cur hj path dirs acc = ⟨vl ++ acc.visited, acc.moves ++ tl⟩ := by
        intro dirs
        induction dirs with
        | nil => intro acc; exact ⟨[], [], by simp [dirFold_nil]⟩
        | cons dir rest ihd =>
          intro acc
          rw [dirFold_cons]
          have hstep : ∃ tl0, stepCheck b cur hj dir acc
              = ⟨acc.visited, acc.moves ++ tl0⟩ := by
            unfold stepCheck
            by_cases hc : (isPositionOnBoard b (cur.add dir)
                && !isPositionOccupied b (cur.add dir) && !hj) = true
            · rw [if_pos hc]; exact ⟨[createSimpleMove (cur.add dir)], rfl⟩
            · rw [if_neg hc]; exact ⟨[], by simp⟩
          obtain ⟨tl0, hstep⟩ := hstep
          have hcj : ∃ vl1 tl1, checkJumpInDirection b s cur dir path fuel
                (stepCheck b cur hj dir acc)
              = ⟨vl1 ++ acc.visited, (acc.moves ++ tl0) ++ tl1⟩ := by
            rw [hstep]
            cases hscan : scanJump b s cur dir with
            | none => exact ⟨[], [], by simp [checkJumpInDirection, hscan]⟩
            | some landing =>
              by_cases hvl : landing ∈ acc.visited
              · exact ⟨[], [], by simp [checkJumpInDirection, hscan, hvl]⟩
              · obtain ⟨vl2, tl2, h2⟩ := ih landing true (path ++ [landing])
                  ⟨acc.visited, (acc.moves ++ tl0) ++ [createJumpMove landing (path ++ [landing])]⟩
                refine ⟨vl2, [createJumpMove landing (path ++ [landing])] ++ tl2, ?_⟩
                simp only [checkJumpInDirection, hscan, hvl, if_neg (fun h => hvl h)]
                rw [h2]
                simp
          obtain ⟨vl1, tl1, hcj⟩ := hcj
          obtain ⟨vl3, tl3, h3⟩ :=
            ihd ⟨vl1 ++ acc.visited, (acc.moves ++ tl0) ++ tl1⟩
          refine ⟨vl3 ++ vl1, (tl0 ++ tl1) ++ tl3, ?_⟩
          rw [hcj]
          rw [h3]
          simp
      obtain ⟨vl, tl, h⟩ := hfold HEX_DIRECTIONS ⟨cur :: st.visited, st.moves⟩
      refine ⟨vl ++ [cur], tl, ?_⟩
      rw [h]
      simp

theorem findMoves_moves_append (b : GameBoard) (s : HexPosition) (fuel : Nat)
    (cur : HexPosition) (hj : Bool) (path : List HexPosition) (st : SearchState) :
    ∃ tl, (findMoves b s fuel cur hj path st).moves = st.moves ++ tl := by
  obtain ⟨vl, tl, h⟩ := findMoves_extends b s fuel cur hj path st
  exact ⟨tl, by rw [h]⟩

theorem findMoves_visited_superset (b : GameBoard) (s : HexPosition) (fuel : Nat)
    (cur : HexPosition) (hj : Bool) (path : List HexPosition) (st : SearchState) :
    ∀ y ∈ st.visited, y ∈ (findMoves b s fuel cur hj path st).visited := by
  obtain ⟨vl, tl, h⟩ := findMoves_extends b s fuel cur hj path st
  intro y hy
  rw [h]
  simp [hy]

/-- `_checkJumpInDirection` also only extends the state. -/
theorem checkJump_extends (b : GameBoard) (s : HexPosition) (cur dir : HexPosition)
    (path : List HexPosition) (fuel : Nat) (st : SearchState) :
    ∃ vl tl, checkJumpInDirection b s cur dir path fuel st = ⟨vl ++ st.visited, st.moves ++ tl⟩ := by
  cases hscan : scanJump b s cur dir with
  | none => exact ⟨[], [], by simp [checkJumpInDirection, hscan]⟩
  | some landing =>
    by_cases hvl : landing ∈ st.visited
    · exact ⟨[], [], by simp [checkJumpInDirection, hscan, hvl]⟩
    · obtain ⟨vl, tl, h⟩ := findMoves_extends b s fuel landing true (path ++ [landing])
        ⟨st.visited, st.moves ++ [createJumpMove landing (path ++ [landing])]⟩
      refine ⟨vl, [createJumpMove landing (path ++ [landing])] ++ tl, ?_⟩
      simp only [checkJumpInDirection, hscan, hvl, if_neg (fun h => hvl h)]
      rw [h]
      simp

/-- Once a jump has been taken (`hasJumped = true`), every move the
exploration adds is a jump move: steps are never generated mid-chain. -/
theorem findMoves_jumponly (b : GameBoard) (s : HexPosition) :
    ∀ (fuel : Nat) (cur : HexPosition) (path : List HexPosition) (st : SearchState)
      (m : MoveInfo), m ∈ (findMoves b s fuel cur true path st).moves →
      m ∈ st.moves ∨ m.moveType = MoveType.jump := by
  intro fuel
  induction fuel with
  | zero => intro cur path st m hm; exact Or.inl (by simpa [findMoves] using hm)
  | succ fuel ih =>
    intro cur path st m hm
    rw [findMoves_succ] at hm
    by_cases hv : cur ∈ st.visited
    · rw [if_pos hv] at hm; exact Or.inl hm
    · rw [if_neg hv] at hm
      have hfold : ∀ (dirs : List HexPosition) (acc : SearchState),
          m ∈ (dirFold b s fuel cur true path dirs acc).moves →
          m ∈ acc.moves ∨ m.moveType = MoveType.jump := by
        intro dirs
        induction dirs with
        | nil => intro acc hmm; exact Or.inl (by simpa [dirFold_nil] using hmm)
        | cons dir rest ihd =>
          intro acc hmm
          rw [dirFold_cons, stepCheck_hasJumped] at hmm
          rcases ihd _ hmm with hin | hj
          · -- m came from the checkJump on acc
            cases hscan : scanJump b s cur dir with
            | none => simp only [checkJumpInDirection, hscan] at hin; exact Or.inl hin
            | some landing =>
              by_cases hvl : landing ∈ acc.visited
              · simp only [checkJumpInDirection, hscan, if_pos hvl] at hin
                exact Or.inl hin
              · simp only [checkJumpInDirection, hscan, if_neg (fun h => hvl h)] at hin
                rcases ih landing (path ++ [landing])
                    ⟨acc.visited, acc.moves ++ [createJumpMove landing (path ++ [landing])]⟩
                    m hin with hin2 | hj2
                · simp only [List.mem_append, List.mem_singleton] at hin2
                  rcases hin2 with hin3 | rfl
                  · exact Or.inl hin3
                  · exact Or.inr rfl
                · exact Or.inr hj2
          · exact Or.inr hj
      exact hfold HEX_DIRECTIONS ⟨cur :: st.visited, st.moves⟩ hm

theorem searchInv_absorb (b : GameBoard) (s cur : HexPosition) (st : SearchState)
    (hcur : cur ∈ st.visited)
    (h : searchInv b s ⟨cur :: st.visited, st.moves⟩) : searchInv b s st := by
  obtain ⟨h1, h2, h3⟩ := h
  refine ⟨h1, ?_, h3⟩
  intro m hm hj
  obtain ⟨hv, hp⟩ := h2 m hm hj
  simp only [List.mem_cons] at hv
  rcases hv with rfl | hv
  · exact ⟨hcur, hp⟩
  · exact ⟨hv, hp⟩

/-- Pushing a fresh jump move and marking its landing visited preserves the
invariant. -/
theorem searchInv_push_jump (b : GameBoard) (s : HexPosition) (st : SearchState)
    (L : HexPosition) (jp : List HexPosition)
    (hinv : searchInv b s st) (hfresh : L ∉ st.visited) (hpar : parityEq L s) :
    searchInv b s ⟨L :: st.visited, st.moves ++ [createJumpMove L jp]⟩ := by
  obtain ⟨h1, h2, h3⟩ := hinv
  refine ⟨?_, ?_, ?_⟩
  · rw [List.pairwise_append]
    refine ⟨h1, by simp, ?_⟩
    intro m1 hm1 m2 hm2
    simp only [List.mem_singleton] at hm2
    subst hm2
    simp only [createJumpMove]
    cases hmt : m1.moveType with
    | jump =>
      obtain ⟨hv, _⟩ := h2 m1 hm1 hmt
      exact fun he => hfresh (he ▸ hv)
    | move =>
      obtain ⟨u, hu, htarget, _, _⟩ := h3 m1 hm1 hmt
      intro he
      rw [he] at htarget
      exact parityEq_not_dir hu s (htarget ▸ hpar)
  · intro m hm hj
    simp only [List.mem_append, List.mem_singleton] at hm
    rcases hm with hm | rfl
    · obtain ⟨hv, hp⟩ := h2 m hm hj
      exact ⟨List.mem_cons_of_mem _ hv, hp⟩
    · exact ⟨List.mem_cons_self _ _, hpar⟩
  · intro m hm hmt
    simp only [List.mem_append, List.mem_singleton] at hm
    rcases hm with hm | rfl
    · exact h3 m hm hmt
    · simp [createJumpMove] at hmt

theorem HexPosition.add_left_cancel {s u v : HexPosition} (h : s.add u = s.add v) : u = v := by
  obtain ⟨a, c⟩ := s; obtain ⟨x1, y1⟩ := u; obtain ⟨x2, y2⟩ := v
  simp only [HexPosition.add, HexPosition.mk.injEq] at h ⊢
  omega

/-- Pushing a step move whose target is fresh preserves the invariant. -/
theorem searchInv_push_step (b : GameBoard) (s : HexPosition) (st : SearchState)
    (dir : HexPosition) (hdir : dir ∈ HEX_DIRECTIONS)
    (hinv : searchInv b s st)
    (hstep : ∀ m ∈ st.moves, m.moveType = MoveType.move → m.targetPos ≠ s.add dir)
    (hob : isPositionOnBoard b (s.add dir) = true)
    (hocc : isPositionOccupied b (s.add dir) = false) :
    searchInv b s ⟨st.visited, st.moves ++ [createSimpleMove (s.add dir)]⟩ := by
  obtain ⟨h1, h2, h3⟩ := hinv
  refine ⟨?_, ?_, ?_⟩
  · rw [List.pairwise_append]
    refine ⟨h1, by simp, ?_⟩
    intro m1 hm1 m2 hm2
    simp only [List.mem_singleton] at hm2
    subst hm2
    simp only [createSimpleMove]
    cases hmt : m1.moveType with
    | jump =>
      obtain ⟨_, hp⟩ := h2 m1 hm1 hmt
      intro he
      exact parityEq_not_dir hdir s (he ▸ hp)
    | move => exact hstep m1 hm1 hmt
  · intro m hm hj
    simp only [List.mem_append, List.mem_singleton] at hm
    rcases hm with hm | rfl
    · exact h2 m hm hj
    · simp [createSimpleMove] at hj
  · intro m hm hmt
    simp only [List.mem_append, List.mem_singleton] at hm
    rcases hm with hm | rfl
    · exact h3 m hm hmt
    · exact ⟨dir, hdir, rfl, hob, hocc⟩

/-- Main preservation lemma for the mid-chain exploration (`hasJumped`
true).  The fuel hypothesis says the loop budget strictly exceeds the number
of unvisited board cells, which makes the fuel-exhaustion branch
unreachable. -/
theorem findMoves_inv (b : GameBoard) (s : HexPosition) :
    ∀ (fuel : Nat) (cur : HexPosition) (path : List HexPosition) (st : SearchState),
      countUnvisited b st.visited < fuel →
      isPositionOnBoard b cur = true →
      parityEq cur s →
      searchInv b s ⟨cur :: st.visited, st.moves⟩ →
      searchInv b s (findMoves b s fuel cur true path st) := by
  intro fuel
  induction fuel with
  | zero => intro cur path st hfa _ _ _; omega
  | succ fuel ih =>
    intro cur path st hfa hob hpar hinv
    rw [findMoves_succ]
    by_cases hv : cur ∈ st.visited
    · rw [if_pos hv]
      exact searchInv_absorb b s cur st hv hinv
    · rw [if_neg hv]
      have hfa1 : countUnvisited b (cur :: st.visited) < fuel := by
        have := countUnvisited_cons_lt b hob hv
        omega
      have hfold : ∀ (dirs : List HexPosition) (acc : SearchState),
          countUnvisited b acc.visited < fuel →
          searchInv b s acc →
          searchInv b s (dirFold b s fuel cur true path dirs acc) := by
        intro dirs
        induction dirs with
        | nil => intro acc _ hia; simpa [dirFold_nil] using hia
        | cons dir rest ihd =>
          intro acc hacc hia
          rw [dirFold_cons, stepCheck_hasJumped]
          cases hscan : scanJump b s cur dir with
          | none =>
            simp only [checkJumpInDirection, hscan]
            exact ihd acc hacc hia
          | some landing =>
            by_cases hvl : landing ∈ acc.visited
            · simp only [checkJumpInDirection, hscan, if_pos hvl]
              exact ihd acc hacc hia
            · simp only [checkJumpInDirection, hscan, if_neg (fun h => hvl h)]
              obtain ⟨hparL, hobL, _⟩ := scanJump_some_facts b s cur dir landing hscan
              have hparLs : parityEq landing s := parityEq_trans hparL hpar
              have hpush := searchInv_push_jump b s acc landing (path ++ [landing])
                hia hvl hparLs
              have hrec := ih landing (path ++ [landing])
                ⟨acc.visited, acc.moves ++ [createJumpMove landing (path ++ [landing])]⟩
                hacc hobL hparLs hpush
              obtain ⟨vl2, tl2, hext⟩ := findMoves_extends b s fuel landing true
                (path ++ [landing])
                ⟨acc.visited, acc.moves ++ [createJumpMove landing (path ++ [landing])]⟩
              have hacc2 : countUnvisited b (findMoves b s fuel landing true
                  (path ++ [landing])
                  ⟨acc.visited, acc.moves ++ [createJumpMove landing (path ++ [landing])]⟩).visited
                  < fuel := by
                have hle := countUnvisited_anti b
                  acc.visited
                  ((findMoves b s fuel landing true (path ++ [landing])
                    ⟨acc.visited, acc.moves ++ [createJumpMove landing (path ++ [landing])]⟩).visited)
                  (by intro y hy; rw [hext]; simp [hy])
                omega
              exact ihd _ hacc2 hrec
      exact hfold HEX_DIRECTIONS ⟨cur :: st.visited, st.moves⟩ hfa1 hinv

theorem stepDirsInv_tail {s : HexPosition} {dir : HexPosition} {dirs : List HexPosition}
    {st : SearchState} (h : stepDirsInv s (dir :: dirs) st) : stepDirsInv s dirs st := by
  intro m hm hmt
  obtain ⟨u, hu, hnot, ht⟩ := h m hm hmt
  exact ⟨u, hu, fun hin => hnot (List.mem_cons_of_mem _ hin), ht⟩

/-- Preservation through the top-level fold (`hasJumped` false, current cell
is the start). -/
theorem dirFold_top_inv (b : GameBoard) (s : HexPosition) (fuel : Nat)
    (path : List HexPosition) :
    ∀ (dirs : List HexPosition) (acc : SearchState),
      dirs.Sublist HEX_DIRECTIONS →
      countUnvisited b acc.visited < fuel →
      searchInv b s acc →
      stepDirsInv s dirs acc →
      searchInv b s (dirFold b s fuel s false path dirs acc) := by
  intro dirs
  induction dirs with
  | nil => intro acc _ _ hia _; simpa [dirFold_nil] using hia
  | cons dir rest ihd =>
    intro acc hsub hacc hia hsd
    have hdirmem : dir ∈ HEX_DIRECTIONS := hsub.subset (List.mem_cons_self _ _)
    have hrestsub : rest.Sublist HEX_DIRECTIONS :=
      (List.sublist_cons_self dir rest).trans hsub
    have hnodup : dir ∉ rest := by
      have hnd : (dir :: rest).Nodup := hsub.nodup (by decide)
      exact (List.nodup_cons.mp hnd).1
    rw [dirFold_cons]
    -- the step check
    have hstep : ∃ st1 : SearchState,
        stepCheck b s false dir acc = st1 ∧ st1.visited = acc.visited ∧
        searchInv b s st1 ∧ stepDirsInv s rest st1 := by
      unfold stepCheck
      by_cases hc : (isPositionOnBoard b (s.add dir)
          && !isPositionOccupied b (s.add dir) && !false) = true
      · rw [if_pos hc]
        simp only [Bool.and_eq_true, Bool.not_eq_true', Bool.not_false] at hc
        refine ⟨_, rfl, rfl, ?_, ?_⟩
        · apply searchInv_push_step b s acc dir hdirmem hia _ hc.1.1 hc.1.2
          intro m hm hmt he
          obtain ⟨u, hu, hnot, ht⟩ := hsd m hm hmt
          have : u = dir := HexPosition.add_left_cancel (ht ▸ he)
          exact hnot (this ▸ List.mem_cons_self _ _)
        · intro m hm hmt
          simp only [List.mem_append, List.mem_singleton] at hm
          rcases hm with hm | rfl
          · obtain ⟨u, hu, hnot, ht⟩ := hsd m hm hmt
            exact ⟨u, hu, fun hin => hnot (List.mem_cons_of_mem _ hin), ht⟩
          · exact ⟨dir, hdirmem, hnodup, rfl⟩
      · rw [if_neg hc]
        exact ⟨acc, rfl, rfl, hia, stepDirsInv_tail hsd⟩
    obtain ⟨st1, hst1, hst1v, hst1inv, hst1sd⟩ := hstep
    rw [hst1]
    -- the jump check
    cases hscan : scanJump b s s dir with
    | none =>
      simp only [checkJumpInDirection, hscan]
      exact ihd st1 hrestsub (by rw [hst1v]; exact hacc) hst1inv hst1sd
    | some landing =>
      by_cases hvl : landing ∈ st1.visited
      · simp only [checkJumpInDirection, hscan, if_pos hvl]
        exact ihd st1 hrestsub (by rw [hst1v]; exact hacc) hst1inv hst1sd
      · simp only [checkJumpInDirection, hscan, if_neg (fun h => hvl h)]
        obtain ⟨hparL, hobL, _⟩ := scanJump_some_facts b s s dir landing hscan
        have hpush := searchInv_push_jump b s st1 landing (path ++ [landing])
          hst1inv hvl hparL
        have hrec := findMoves_inv b s fuel landing (path ++ [landing])
          ⟨st1.visited, st1.moves ++ [createJumpMove landing (path ++ [landing])]⟩
          (by rw [hst1v]; exact hacc) hobL hparL hpush
        obtain ⟨vl2, tl2, hext⟩ := findMoves_extends b s fuel landing true
          (path ++ [landing])
          ⟨st1.visited, st1.moves ++ [createJumpMove landing (path ++ [landing])]⟩
        have hacc2 : countUnvisited b (findMoves b s fuel landing true (path ++ [landing])
            ⟨st1.visited, st1.moves ++ [createJumpMove landing (path ++ [landing])]⟩).visited
            < fuel := by
          have hle := countUnvisited_anti b
            st1.visited
            ((findMoves b s fuel landing true (path ++ [landing])
              ⟨st1.visited, st1.moves ++ [createJumpMove landing (path ++ [landing])]⟩).visited)
            (by intro y hy; rw [hext]; simp [hy])
          have hacc1 : countUnvisited b st1.visited < fuel := by rw [hst1v]; exact hacc
          omega
        have hsd2 : stepDirsInv s rest (findMoves b s fuel landing true (path ++ [landing])
            ⟨st1.visited, st1.moves ++ [createJumpMove landing (path ++ [landing])]⟩) := by
          intro m hm hmt
          rcases findMoves_jumponly b s fuel landing (path ++ [landing]) _ m hm with hin | hj
          · simp only [List.mem_append, List.mem_singleton] at hin
            rcases hin with hin | rfl
            · exact hst1sd m hin hmt
            · simp [createJumpMove] at hmt
          · rw [hmt] at hj; cases hj
        exact ihd _ hrestsub hacc2 hrec hsd2

theorem dirFold_moves_append (b : GameBoard) (s : HexPosition) (fuel : Nat)
    (cur : HexPosition) (hj : Bool) (path : List HexPosition) :
    ∀ (dirs : List HexPosition) (acc : SearchState),
      ∃ tl, (dirFold b s fuel cur hj path dirs acc).moves = acc.moves ++ tl := by
  intro dirs
  induction dirs with
  | nil => intro acc; exact ⟨[], by simp [dirFold_nil]⟩
  | cons dir rest ihd =>
    intro acc
    rw [dirFold_cons]
    have hstep : ∃ tl0, (stepCheck b cur hj dir acc).visited = acc.visited ∧
        (stepCheck b cur hj dir acc).moves = acc.moves ++ tl0 := by
      unfold stepCheck
      by_cases hc : (isPositionOnBoard b (cur.add dir)
          && !isPositionOccupied b (cur.add dir) && !hj) = true
      · rw [if_pos hc]; exact ⟨[createSimpleMove (cur.add dir)], rfl, rfl⟩
      · rw [if_neg hc]; exact ⟨[], rfl, by simp⟩
    obtain ⟨tl0, _, hstepm⟩ := hstep
    obtain ⟨vl1, tl1, hcj⟩ := checkJump_extends b s cur dir path fuel
      (stepCheck b cur hj dir acc)
    obtain ⟨tl3, h3⟩ := ihd ⟨vl1 ++ (stepCheck b cur hj dir acc).visited,
      (stepCheck b cur hj dir acc).moves ++ tl1⟩
    refine ⟨(tl0 ++ tl1) ++ tl3, ?_⟩
    rw [hcj, h3]
    simp only [hstepm]
    simp

/-- If a direction is still pending and its adjacent cell is free, the
top-level fold records the corresponding step move. -/
theorem dirFold_step_complete (b : GameBoard) (s : HexPosition) (fuel : Nat)
    (path : List HexPosition) :
    ∀ (dirs : List HexPosition) (acc : SearchState) (dir : HexPosition),
      dir ∈ dirs →
      isPositionOnBoard b (s.add dir) = true →
      isPositionOccupied b (s.add dir) = false →
      createSimpleMove (s.add dir) ∈ (dirFold b s fuel s false path dirs acc).moves := by
  intro dirs
  induction dirs with
  | nil => intro acc dir hmem; cases hmem
  | cons d0 rest ihd =>
    intro acc dir hmem hob hocc
    rw [dirFold_cons]
    rcases List.mem_cons.mp hmem with rfl | hmem2
    · -- this direction is processed now: the step check pushes the move
      have hc : (isPositionOnBoard b (s.add dir)
          && !isPositionOccupied b (s.add dir) && !false) = true := by
        simp [hob, hocc]
      have hstep : stepCheck b s false dir acc
          = ⟨acc.visited, acc.moves ++ [createSimpleMove (s.add dir)]⟩ := by
        unfold stepCheck
        rw [if_pos hc]
      obtain ⟨vl1, tl1, hcj⟩ := checkJump_extends b s s dir path fuel
        (stepCheck b s false dir acc)
      obtain ⟨tl3, h3⟩ := dirFold_moves_append b s fuel s false path rest
        ⟨vl1 ++ (stepCheck b s false dir acc).visited,
          (stepCheck b s false dir acc).moves ++ tl1⟩
      rw [hcj, h3]
      simp only [hstep]
      simp
    · -- processed later: membership is preserved by the remaining fold
      exact ihd _ dir hmem2 hob hocc

/-- The final state of a top-level query satisfies the search invariant. -/
theorem findValidMoves_searchInv (b : GameBoard) (startPos : HexPosition)
    (h : isPositionOnBoard b startPos = true) :
    searchInv b startPos
      (findMoves b startPos (b.length + 1) startPos false [] ⟨[], []⟩) := by
  rw [findMoves_succ, if_neg (List.not_mem_nil _)]
  have hU0 : countUnvisited b [] = b.length := by
    simp [countUnvisited]
  have hU : countUnvisited b (startPos :: ([] : List HexPosition)) < b.length := by
    have := countUnvisited_cons_lt b h (List.not_mem_nil startPos)
    omega
  exact dirFold_top_inv b startPos b.length [] HEX_DIRECTIONS ⟨[startPos], []⟩
    (List.Sublist.refl _) hU ⟨List.Pairwise.nil, by simp, by simp⟩ (by intro m hm; cases hm)

-- ============================================================================
-- Claim theorems: move generation
-- ============================================================================

/-- C1: For every board state and every on-board start coordinate, the move
list returned by `findValidMoves` contains at most one move per distinct
target coordinate: no two returned moves (step or jump) share a
`targetPos`. -/
theorem spec_C1 (b : GameBoard) (startPos : HexPosition)
    (h : isPositionOnBoard b startPos = true) :
    List.Pairwise (fun m1 m2 => m1.targetPos ≠ m2.targetPos)
      (findValidMoves b startPos) :=
  (findValidMoves_searchInv b startPos h).1

theorem spec_C1_witness :
    isPositionOnBoard demoBoard ⟨0, 0⟩ = true ∧
    List.Pairwise (fun m1 m2 => m1.targetPos ≠ m2.targetPos)
      (findValidMoves demoBoard ⟨0, 0⟩) :=
  ⟨by decide, spec_C1 demoBoard ⟨0, 0⟩ (by decide)⟩

/-- C5: For every board state and on-board start coordinate, a step move to
the adjacent cell in a direction is in the result exactly when that cell is
on-board and unoccupied (`hasJumped` is false only at the true starting
cell); every step move in the result is adjacent to the start; and once
`hasJumped` is true the exploration adds only jump moves, so no step move is
ever generated from a mid-chain landing spot. -/
theorem spec_C5 (b : GameBoard) (startPos : HexPosition)
    (h : isPositionOnBoard b startPos = true) :
    (∀ dir ∈ HEX_DIRECTIONS,
      ((∃ m ∈ findValidMoves b startPos, m.moveType = MoveType.move ∧
          m.targetPos = startPos.add dir) ↔
        (isPositionOnBoard b (startPos.add dir) = true ∧
         isPositionOccupied b (startPos.add dir) = false)))
    ∧ (∀ m ∈ findValidMoves b startPos, m.moveType = MoveType.move →
        ∃ dir ∈ HEX_DIRECTIONS, m.targetPos = startPos.add dir)
    ∧ (∀ (fuel : Nat) (cur : HexPosition) (path : List HexPosition) (st : SearchState)
        (m : MoveInfo), m ∈ (findMoves b startPos fuel cur true path st).moves →
        m ∈ st.moves ∨ m.moveType = MoveType.jump) := by
  obtain ⟨hpw, hjumps, hsteps⟩ := findValidMoves_searchInv b startPos h
  refine ⟨?_, ?_, ?_⟩
  · intro dir hdir
    constructor
    · rintro ⟨m, hm, hmt, htarget⟩
      obtain ⟨u, hu, ht, hob, hocc⟩ := hsteps m hm hmt
      have : u = dir := HexPosition.add_left_cancel (ht ▸ htarget)
      subst this
      exact ⟨ht ▸ hob, ht ▸ hocc⟩
    · rintro ⟨hob, hocc⟩
      refine ⟨createSimpleMove (startPos.add dir), ?_, rfl, rfl⟩
      unfold findValidMoves
      rw [findMoves_succ, if_neg (List.not_mem_nil _)]
      exact dirFold_step_complete b startPos b.length [] HEX_DIRECTIONS
        ⟨[startPos], []⟩ dir hdir hob hocc
  · intro m hm hmt
    obtain ⟨u, hu, ht, _, _⟩ := hsteps m hm hmt
    exact ⟨u, hu, ht⟩
  · exact fun fuel cur path st m hm => findMoves_jumponly b startPos fuel cur path st m hm

theorem spec_C5_witness :
    ∃ m ∈ findValidMoves demoBoard ⟨0, 0⟩, m.moveType = MoveType.move ∧
      m.targetPos = HexPosition.add ⟨0, 0⟩ ⟨0, 1⟩ :=
  ((spec_C5 demoBoard ⟨0, 0⟩ (by decide)).1 ⟨0, 1⟩ (by decide)).mpr (by decide)

-- ============================================================================
-- boardSet lemmas (used for C2's witness board and for movePiece)
-- ============================================================================

theorem getBoardCell_boardSet_self (b : GameBoard) (k : HexPosition) (c : BoardCell) :
    getBoardCell (boardSet b k c) k = some c := by
  induction b with
  | nil => simp [boardSet, getBoardCell, List.find?]
  | cons e rest ih =>
    unfold boardSet
    cases he : (e.1 == k) with
    | true =>
      rw [if_pos rfl]
      simp [getBoardCell, List.find?_cons]
    | false =>
      rw [if_neg (by simp)]
      unfold getBoardCell at ih ⊢
      rw [List.find?_cons]
      simp only [he]
      exact ih

theorem getBoardCell_boardSet_ne (b : GameBoard) (k p : HexPosition) (c : BoardCell)
    (h : p ≠ k) : getBoardCell (boardSet b k c) p = getBoardCell b p := by
  have hkp : (k == p) = false := by
    simp only [beq_eq_false_iff_ne, ne_eq]
    exact fun he => h he.symm
  induction b with
  | nil =>
    unfold boardSet getBoardCell
    rw [List.find?_cons]
    simp only [hkp]
  | cons e rest ih =>
    unfold boardSet
    cases he : (e.1 == k) with
    | true =>
      rw [if_pos rfl]
      unfold getBoardCell
      rw [List.find?_cons, List.find?_cons]
      have hep : (e.1 == p) = false := by
        have hek : e.1 = k := by simpa using he
        simp only [hek, beq_eq_false_iff_ne, ne_eq]
        exact fun hh => h hh.symm
      simp only [hkp, hep]
    | false =>
      rw [if_neg (by simp)]
      unfold getBoardCell at ih ⊢
      rw [List.find?_cons, List.find?_cons]
      cases hep : (e.1 == p) with
      | true => simp only [hep]
      | false =>
        simp only [hep]
        exact ih

theorem onBoard_boardSet_of_mem (b : GameBoard) (k : HexPosition) (c : BoardCell)
    (hk : isPositionOnBoard b k = true) (p : HexPosition) :
    isPositionOnBoard (boardSet b k c) p = isPositionOnBoard b p := by
  by_cases hp : p = k
  · subst hp
    unfold isPositionOnBoard at hk ⊢
    rw [getBoardCell_boardSet_self]
    simp only [Option.isSome_some]
    exact hk.symm
  · unfold isPositionOnBoard
    rw [getBoardCell_boardSet_ne b k p c hp]

theorem fullJumpConditions_to_spec (b : GameBoard) (startPos P dir : HexPosition)
    (d : Nat) (h : fullJumpConditions b startPos P dir d) :
    specJumpConditions b startPos P dir d := by
  obtain ⟨h1, h2, h3, h4, h5, h6, h7, h8, h9⟩ := h
  exact ⟨h1, fun k hk1 hk2 => h3 k hk2 hk1, h4, h5, h6,
    fun k hk1 hk2 => (h7 k hk2 hk1).2, h8, h9⟩

/-- On the real board topology, the spec's conditions already force the two
extra facts the implementation checks: the cells between pivot and landing
are on-board (the board is convex along rays) and the landing lies within
the loop bound of 16 (the board is at most 17 cells wide along any ray). -/
theorem specJumpConditions_to_full (b : GameBoard)
    (htopo : ∀ p, isPositionOnBoard b p = isPositionOnBoard initializeBoard p)
    (startPos P dir : HexPosition) (hdir : dir ∈ HEX_DIRECTIONS) (d : Nat)
    (hc : specJumpConditions b startPos P dir d) :
    fullJumpConditions b startPos P dir d := by
  obtain ⟨hd, happr, hobd, hoccd, hne, hmid, hob2d, hocc2d⟩ := hc
  have hspec : ∀ k : Nat, isPositionOnBoard b (rayCell P dir k) = true ↔
      realBoardSpec (rayCell P dir k) := by
    intro k
    rw [htopo]
    exact onBoard_initializeBoard_iff _
  have hs1 : realBoardSpec (rayCell P dir 1) := by
    rcases Nat.eq_or_lt_of_le hd with rfl | hgt
    · exact (hspec 1).mp hobd
    · exact (hspec 1).mp (happr 1 hgt (le_refl _)).1
  have hsd : realBoardSpec (rayCell P dir d) := (hspec d).mp hobd
  have hs2d : realBoardSpec (rayCell P dir (2 * d)) := (hspec (2 * d)).mp hob2d
  have hbound : 2 * d ≤ 16 := by
    have hgap := realBoardSpec_gap hdir P 1 ((2 * d : Nat) : Int)
      (by push_cast; omega)
      (by simpa [rayCell] using hs1)
      (by simpa [rayCell] using hs2d)
    omega
  have hmidob : ∀ k, d < k → k < 2 * d →
      isPositionOnBoard b (rayCell P dir k) = true := by
    intro k hk1 hk2
    rw [hspec k]
    have h2d : rayCell P dir (2 * d) = (rayCell P dir d).add (dir.scale (d : Int)) := by
      obtain ⟨pq, pr⟩ := P; obtain ⟨dq, dr⟩ := dir
      simp only [rayCell, HexPosition.add, HexPosition.scale, HexPosition.mk.injEq]
      push_cast
      constructor <;> ring
    have hkdecomp : rayCell P dir k
        = (rayCell P dir d).add (dir.scale ((k : Int) - (d : Int))) := by
      obtain ⟨pq, pr⟩ := P; obtain ⟨dq, dr⟩ := dir
      simp only [rayCell, HexPosition.add, HexPosition.scale, HexPosition.mk.injEq]
      constructor <;> ring
    rw [hkdecomp]
    exact realBoardSpec_convex hdir (rayCell P dir d) ((d : Int)) ((k : Int) - (d : Int))
      (by omega) (by omega) hsd (by rw [← h2d]; exact hs2d)
  exact ⟨hd, hbound, fun k hk1 hk2 => happr k hk2 hk1, hobd, hoccd, hne,
    fun k hk1 hk2 => ⟨hmidob k hk1 hk2, hmid k hk2 hk1⟩, hob2d, hocc2d⟩

/-- C2: On the real board topology (arbitrary occupancy), a jump move from an
exploration position `P` over a pivot at distance `d` in direction `dir` is
recorded by `_checkJumpInDirection` — appended right after the moves already
accumulated — exactly when the spec's cell conditions hold and the landing
has not been visited. -/
theorem spec_C2 (b : GameBoard)
    (htopo : ∀ p, isPositionOnBoard b p = isPositionOnBoard initializeBoard p)
    (startPos P dir : HexPosition) (hdir : dir ∈ HEX_DIRECTIONS)
    (path : List HexPosition) (fuel : Nat) (st : SearchState) (d : Nat) (hd : 1 ≤ d) :
    (∃ tl, (checkJumpInDirection b startPos P dir path fuel st).moves
        = st.moves ++ createJumpMove (rayCell P dir (2 * d))
            (path ++ [rayCell P dir (2 * d)]) :: tl)
    ↔ (specJumpConditions b startPos P dir d ∧ rayCell P dir (2 * d) ∉ st.visited) := by
  constructor
  · rintro ⟨tl, heq⟩
    cases hscan : scanJump b startPos P dir with
    | none =>
      exfalso
      simp only [checkJumpInDirection, hscan] at heq
      have := congrArg List.length heq
      simp at this
    | some L =>
      by_cases hvl : L ∈ st.visited
      · exfalso
        simp only [checkJumpInDirection, hscan, if_pos hvl] at heq
        have := congrArg List.length heq
        simp at this
      · simp only [checkJumpInDirection, hscan, if_neg (fun h => hvl h)] at heq
        obtain ⟨vl2, tl2, hext⟩ := findMoves_extends b startPos fuel L true (path ++ [L])
          ⟨st.visited, st.moves ++ [createJumpMove L (path ++ [L])]⟩
        rw [hext] at heq
        simp only [List.append_assoc, List.singleton_append] at heq
        have heq2 := List.append_cancel_left heq
        have hhead : createJumpMove (rayCell P dir (2 * d)) (path ++ [rayCell P dir (2 * d)])
            = createJumpMove L (path ++ [L]) := (List.cons.injEq _ _ _ _).mp heq2.symm |>.1
        have htarget : rayCell P dir (2 * d) = L := congrArg MoveInfo.targetPos hhead
        subst htarget
        refine ⟨?_, hvl⟩
        exact fullJumpConditions_to_spec b startPos P dir d
          ((scanJump_eq_some_iff b startPos P dir hdir d hd).mp hscan)
  · rintro ⟨hc, hnv⟩
    have hfull := specJumpConditions_to_full b htopo startPos P dir hdir d hc
    have hscan := (scanJump_eq_some_iff b startPos P dir hdir d hd).mpr hfull
    simp only [checkJumpInDirection, hscan, if_neg (fun h => hnv h)]
    obtain ⟨vl2, tl2, hext⟩ := findMoves_extends b startPos fuel (rayCell P dir (2 * d))
      true (path ++ [rayCell P dir (2 * d)])
      ⟨st.visited, st.moves ++ [createJumpMove (rayCell P dir (2 * d))
        (path ++ [rayCell P dir (2 * d)])]⟩
    rw [hext]
    exact ⟨tl2, by simp⟩

theorem realDemoBoard_topo :
    ∀ p, isPositionOnBoard realDemoBoard p = isPositionOnBoard initializeBoard p := by
  intro p
  have h1 : isPositionOnBoard initializeBoard ⟨0, 0⟩ = true := by decide
  have h2 : isPositionOnBoard (boardSet initializeBoard ⟨0, 0⟩
      ⟨⟨0, 0⟩, -1, some ⟨⟨0, 0⟩, 0⟩⟩) ⟨1, 0⟩ = true := by
    rw [onBoard_boardSet_of_mem _ _ _ h1]
    decide
  unfold realDemoBoard
  rw [onBoard_boardSet_of_mem _ _ _ h2, onBoard_boardSet_of_mem _ _ _ h1]

theorem spec_C2_witness :
    ∃ tl, (checkJumpInDirection realDemoBoard ⟨0, 0⟩ ⟨0, 0⟩ ⟨1, 0⟩ [] 5
        ⟨[⟨0, 0⟩], []⟩).moves
      = ([] : List MoveInfo) ++ createJumpMove (rayCell ⟨0, 0⟩ ⟨1, 0⟩ (2 * 1))
          ([] ++ [rayCell ⟨0, 0⟩ ⟨1, 0⟩ (2 * 1)]) :: tl :=
  (spec_C2 realDemoBoard realDemoBoard_topo ⟨0, 0⟩ ⟨0, 0⟩ ⟨1, 0⟩ (by decide)
    [] 5 ⟨[⟨0, 0⟩], []⟩ 1 (by decide)).mpr ⟨by decide, by decide⟩

/-- C3: On the real board topology every scan ray leaves the board within 17
steps, so the loop bound of 16 never cuts a scan short: the bounded scan
equals the scan with any bound of at least 16. -/
theorem spec_C3 (b : GameBoard)
    (htopo : ∀ p, isPositionOnBoard b p = isPositionOnBoard initializeBoard p)
    (startPos P dir : HexPosition) (hdir : dir ∈ HEX_DIRECTIONS)
    (hP : isPositionOnBoard b P = true) :
    (∃ k, 1 ≤ k ∧ k ≤ 17 ∧ isPositionOnBoard b (rayCell P dir k) = false)
    ∧ (∀ N, 16 ≤ N →
        jumpScanBound b startPos P dir N = scanJump b startPos P dir) := by
  have hspecP : realBoardSpec P := by
    rw [htopo] at hP
    exact (onBoard_initializeBoard_iff P).mp hP
  have hoff : isPositionOnBoard b (rayCell P dir 17) = false := by
    rw [htopo]
    by_contra hcon
    have hob : isPositionOnBoard initializeBoard (rayCell P dir 17) = true := by
      cases hx : isPositionOnBoard initializeBoard (rayCell P dir 17) with
      | true => rfl
      | false => exact absurd hx hcon
    have := (onBoard_initializeBoard_iff _).mp hob
    exact realBoardSpec_step17 hdir P hspecP (by simpa [rayCell] using this)
  refine ⟨⟨17, by omega, le_refl _, hoff⟩, ?_⟩
  intro N hN
  unfold jumpScanBound scanJump jumpScanBound
  exact scanGo_congr_of_offboard b startPos P dir N 16 1 17 none
    (by omega) (by omega) (by omega) hoff

theorem spec_C3_witness :
    (∃ k, 1 ≤ k ∧ k ≤ 17 ∧
      isPositionOnBoard initializeBoard (rayCell ⟨0, 0⟩ ⟨1, 0⟩ k) = false)
    ∧ (∀ N, 16 ≤ N →
        jumpScanBound initializeBoard ⟨4, -8⟩ ⟨0, 0⟩ ⟨1, 0⟩ N
          = scanJump initializeBoard ⟨4, -8⟩ ⟨0, 0⟩ ⟨1, 0⟩) :=
  spec_C3 initializeBoard (fun _ => rfl) ⟨4, -8⟩ ⟨0, 0⟩ ⟨1, 0⟩ (by decide) (by decide)

/-- Skipping a clear prefix of a scan ray. -/
theorem scanGo_skip (b : GameBoard) (s P dir : HexPosition) :
    ∀ (m r dist : Nat),
      (∀ k, dist ≤ k → k < dist + m →
        isPositionOnBoard b (rayCell P dir k) = true ∧
        isPositionOccupied b (rayCell P dir k) = false) →
      scanGo b s P dir (m + r) dist none = scanGo b s P dir r (dist + m) none := by
  intro m
  induction m with
  | zero => intro r dist _; rw [Nat.zero_add, Nat.add_zero]
  | succ m ih =>
    intro r dist hrange
    have hcur := hrange dist (le_refl _) (by omega)
    rw [show m + 1 + r = (m + r) + 1 from by omega, scanGo_succ_none,
      if_pos hcur.1, if_neg (by simp [hcur.2])]
    rw [ih r (dist + 1) (fun k hk1 hk2 => hrange k (by omega) (by omega))]
    congr 1
    omega

/-- C4: If the first occupied cell of the scan is the original start
position, the direction is abandoned: the scan reports nothing and
`_checkJumpInDirection` leaves the state untouched, even mid-chain. -/
theorem spec_C4 (b : GameBoard) (startPos P dir : HexPosition) (d : Nat)
    (hd : 1 ≤ d) (hdle : d ≤ 16)
    (happr : ∀ k, k < d → 1 ≤ k →
      isPositionOnBoard b (rayCell P dir k) = true ∧
      isPositionOccupied b (rayCell P dir k) = false)
    (hob : isPositionOnBoard b (rayCell P dir d) = true)
    (hocc : isPositionOccupied b (rayCell P dir d) = true)
    (hstart : rayCell P dir d = startPos) :
    scanJump b startPos P dir = none ∧
    ∀ (path : List HexPosition) (fuel : Nat) (st : SearchState),
      checkJumpInDirection b startPos P dir path fuel st = st := by
  have hscan : scanJump b startPos P dir = none := by
    unfold scanJump jumpScanBound
    rw [show (16 : Nat) = (d - 1) + (17 - d) from by omega]
    rw [scanGo_skip b startPos P dir (d - 1) (17 - d) 1
      (fun k hk1 hk2 => happr k (by omega) (by omega))]
    rw [show 1 + (d - 1) = d from by omega,
      show 17 - d = (16 - d) + 1 from by omega, scanGo_succ_none,
      if_pos hob, if_pos hocc, if_pos hstart]
  exact ⟨hscan, fun path fuel st => by simp [checkJumpInDirection, hscan]⟩

theorem spec_C4_witness :
    scanJump abortDemoBoard ⟨0, 0⟩ ⟨2, 0⟩ ⟨-1, 0⟩ = none ∧
    ∀ (path : List HexPosition) (fuel : Nat) (st : SearchState),
      checkJumpInDirection abortDemoBoard ⟨0, 0⟩ ⟨2, 0⟩ ⟨-1, 0⟩ path fuel st = st :=
  spec_C4 abortDemoBoard ⟨0, 0⟩ ⟨2, 0⟩ ⟨-1, 0⟩ 2 (by decide) (by decide)
    (by decide) (by decide) (by decide) (by decide)

-- ============================================================================
-- Claim C6: win detection
-- ============================================================================

/-- C6: with the goal triangle fixed to `(home + 3) % 6` (as the
`PlayerState` constructor does), `hasWon` is true exactly when each of the
10 goal-triangle coordinates holds a cell containing a piece owned by the
player's home index. -/
theorem spec_C6 (gs : GameState) (ps : PlayerState)
    (hgoal : ps.goalTriangleIndex = (ps.homeTriangleIndex + 3) % 6) :
    (getTrianglePositions ((ps.homeTriangleIndex + 3) % 6)).length = 10
    ∧ (ps.hasWon gs = true ↔
        ∀ pos ∈ getTrianglePositions ((ps.homeTriangleIndex + 3) % 6),
          ∃ cell, getBoardCell gs.board pos = some cell ∧
            ∃ piece, cell.piece = some piece ∧
              piece.ownerPlayerIndex = ps.homeTriangleIndex) := by
  constructor
  · have hlt : (ps.homeTriangleIndex + 3) % 6 < 6 := Nat.mod_lt _ (by omega)
    have hall : ∀ i, i < 6 → (getTrianglePositions i).length = 10 := by decide
    exact hall _ hlt
  · unfold PlayerState.hasWon
    rw [hgoal, List.all_eq_true]
    constructor
    · intro h pos hpos
      have hcur := h pos hpos
      cases hcell : getBoardCell gs.board pos with
      | none =>
        rw [hcell] at hcur
        exact Bool.noConfusion (show (false : Bool) = true from hcur)
      | some cell =>
        rw [hcell] at hcur
        have hcur2 : (match cell.piece with
            | none => false
            | some piece => piece.ownerPlayerIndex == ps.homeTriangleIndex) = true := hcur
        cases hpc : cell.piece with
        | none =>
          rw [hpc] at hcur2
          exact Bool.noConfusion (show (false : Bool) = true from hcur2)
        | some piece =>
          rw [hpc] at hcur2
          have hcur3 : (piece.ownerPlayerIndex == ps.homeTriangleIndex) = true := hcur2
          exact ⟨cell, rfl, piece, hpc, by simpa using hcur3⟩
    · intro h pos hpos
      obtain ⟨cell, hcell, piece, hpc, howner⟩ := h pos hpos
      simp only [hcell, hpc, howner]
      simp

theorem spec_C6_witness :
    (getTrianglePositions ((0 + 3) % 6)).length = 10
    ∧ ((mkPlayerState 0 0).hasWon demoGameState = true ↔
        ∀ pos ∈ getTrianglePositions ((0 + 3) % 6),
          ∃ cell, getBoardCell demoGameState.board pos = some cell ∧
            ∃ piece, cell.piece = some piece ∧
              piece.ownerPlayerIndex = 0) :=
  spec_C6 demoGameState (mkPlayerState 0 0) (by decide)

-- ============================================================================
-- Claim C7: movePiece
-- ============================================================================

theorem updatePiecePosition_mem (ps : PlayerState) (f t k : HexPosition) :
    k ∈ (updatePiecePosition ps f t).piecePositions ↔
      ((k ∈ ps.piecePositions ∧ k ≠ f) ∨ k = t) := by
  unfold updatePiecePosition setAdd setDelete
  by_cases ht : t ∈ ps.piecePositions.filter (fun x => !(x == f))
  · rw [if_pos ht]
    simp only [List.mem_filter, Bool.not_eq_true', beq_eq_false_iff_ne, ne_eq] at ht ⊢
    constructor
    · intro hk; exact Or.inl hk
    · rintro (hk | rfl)
      · exact hk
      · exact ht
  · rw [if_neg ht]
    simp only [List.mem_append, List.mem_filter, Bool.not_eq_true', beq_eq_false_iff_ne,
      ne_eq, List.mem_singleton]

theorem updateFirstPlayer_cons_pos (p : PlayerState) (rest : List PlayerState)
    (owner : Nat) (f t : HexPosition) (h : p.homeTriangleIndex = owner) :
    updateFirstPlayer (p :: rest) owner f t = updatePiecePosition p f t :: rest := by
  simp [updateFirstPlayer, h]

theorem updateFirstPlayer_cons_neg (p : PlayerState) (rest : List PlayerState)
    (owner : Nat) (f t : HexPosition) (h : ¬ p.homeTriangleIndex = owner) :
    updateFirstPlayer (p :: rest) owner f t = p :: updateFirstPlayer rest owner f t := by
  simp [updateFirstPlayer, h]

/-- With pairwise-distinct home indices (the game never creates two players
with the same home triangle), updating the first matching player is the same
as updating every matching player: each player's key set is transformed
independently. -/
theorem updateFirstPlayer_eq_map (l : List PlayerState) (owner : Nat) (f t : HexPosition)
    (hp : l.Pairwise (fun a b => a.homeTriangleIndex ≠ b.homeTriangleIndex)) :
    updateFirstPlayer l owner f t
      = l.map (fun p => if p.homeTriangleIndex = owner
          then updatePiecePosition p f t else p) := by
  induction l with
  | nil => rfl
  | cons p rest ih =>
    obtain ⟨hhead, htail⟩ := List.pairwise_cons.mp hp
    by_cases hm : p.homeTriangleIndex = owner
    · rw [updateFirstPlayer_cons_pos p rest owner f t hm]
      simp only [List.map_cons, if_pos hm]
      congr 1
      have hrest : ∀ q ∈ rest, (if q.homeTriangleIndex = owner
          then updatePiecePosition q f t else q) = q := by
        intro q hq
        rw [if_neg (fun hqo => hhead q hq (hm.trans hqo.symm))]
      rw [List.map_congr_left hrest]
      simp
    · rw [updateFirstPlayer_cons_neg p rest owner f t hm]
      simp only [List.map_cons, if_neg hm]
      congr 1
      exact ih htail

/-- C7: `movePiece` succeeds exactly when the source cell exists and is
occupied and the target cell exists and is free; on failure the state is
returned untouched and nothing is emitted; on success the piece sits on the
target cell, the source cell is empty (but still a board cell), a single
`pieceMoved` event is emitted, and the owning player's key set has the
source key deleted and the target key added (other players unchanged). -/
theorem spec_C7 (gs : GameState) (fromPos toPos : HexPosition)
    (huniq : gs.players.Pairwise fun a b => a.homeTriangleIndex ≠ b.homeTriangleIndex) :
    ((movePiece gs fromPos toPos).1 = true ↔
      (isPositionOnBoard gs.board fromPos = true ∧
       isPositionOccupied gs.board fromPos = true ∧
       isPositionOnBoard gs.board toPos = true ∧
       isPositionOccupied gs.board toPos = false))
    ∧ ((movePiece gs fromPos toPos).1 = false →
        (movePiece gs fromPos toPos).2.1 = gs ∧ (movePiece gs fromPos toPos).2.2 = [])
    ∧ (∀ piece, getPieceAt gs.board fromPos = some piece →
        (movePiece gs fromPos toPos).1 = true →
        getPieceAt (movePiece gs fromPos toPos).2.1.board toPos
            = some { piece with position := toPos }
        ∧ isPositionOccupied (movePiece gs fromPos toPos).2.1.board fromPos = false
        ∧ isPositionOnBoard (movePiece gs fromPos toPos).2.1.board fromPos = true
        ∧ (movePiece gs fromPos toPos).2.2
            = [GameEvent.pieceMoved fromPos toPos { piece with position := toPos }]
        ∧ (movePiece gs fromPos toPos).2.1.players
            = gs.players.map (fun p =>
                if p.homeTriangleIndex = piece.ownerPlayerIndex
                then updatePiecePosition p fromPos toPos else p)
        ∧ (∀ (p : PlayerState) (k : HexPosition),
            k ∈ (updatePiecePosition p fromPos toPos).piecePositions ↔
              ((k ∈ p.piecePositions ∧ k ≠ fromPos) ∨ k = toPos))) := by
  cases hfc : getBoardCell gs.board fromPos with
  | none =>
    have hr : movePiece gs fromPos toPos = (false, gs, []) := by
      cases htc : getBoardCell gs.board toPos <;> simp [movePiece, hfc, htc]
    rw [hr]
    refine ⟨by simp [isPositionOnBoard, hfc], fun _ => ⟨rfl, rfl⟩, ?_⟩
    intro piece hpiece
    simp [getPieceAt, hfc] at hpiece
  | some fc =>
    cases hpc : fc.piece with
    | none =>
      have hr : movePiece gs fromPos toPos = (false, gs, []) := by
        cases htc : getBoardCell gs.board toPos <;> simp [movePiece, hfc, htc, hpc]
      rw [hr]
      refine ⟨by simp [isPositionOccupied, hfc, hpc], fun _ => ⟨rfl, rfl⟩, ?_⟩
      intro piece hpiece
      simp [getPieceAt, hfc, hpc] at hpiece
    | some piece0 =>
      cases htc : getBoardCell gs.board toPos with
      | none =>
        have hr : movePiece gs fromPos toPos = (false, gs, []) := by
          simp [movePiece, hfc, htc, hpc]
        rw [hr]
        refine ⟨by simp [isPositionOnBoard, htc], fun _ => ⟨rfl, rfl⟩, ?_⟩
        intro piece hpiece htrue
        cases htrue
      | some tc =>
        cases hto : tc.piece with
        | some tp =>
          have hr : movePiece gs fromPos toPos = (false, gs, []) := by
            simp [movePiece, hfc, htc, hpc, hto]
          rw [hr]
          refine ⟨by simp [isPositionOccupied, htc, hto], fun _ => ⟨rfl, rfl⟩, ?_⟩
          intro piece hpiece htrue
          cases htrue
        | none =>
          have hne : fromPos ≠ toPos := by
            intro he
            rw [he, htc] at hfc
            obtain rfl : tc = fc := by injection hfc
            rw [hpc] at hto
            cases hto
          have hr : movePiece gs fromPos toPos =
              (true,
               { gs with
                  board := boardSet (boardSet gs.board fromPos { fc with piece := none })
                    toPos { tc with piece := some { piece0 with position := toPos } },
                  players := updateFirstPlayer gs.players piece0.ownerPlayerIndex
                    fromPos toPos },
               [GameEvent.pieceMoved fromPos toPos { piece0 with position := toPos }]) := by
            simp [movePiece, hfc, htc, hpc, hto]
          rw [hr]
          refine ⟨?_, ?_, ?_⟩
          · simp [isPositionOnBoard, isPositionOccupied, hfc, htc, hpc, hto]
          · intro hfalse; simp at hfalse
          · intro piece hpiece _
            have hpiece0 : piece = piece0 := by
              simp [getPieceAt, hfc, hpc] at hpiece
              exact hpiece.symm
            subst hpiece0
            refine ⟨?_, ?_, ?_, rfl, ?_, ?_⟩
            · simp only [getPieceAt]
              rw [getBoardCell_boardSet_self]
            · simp only [isPositionOccupied]
              rw [getBoardCell_boardSet_ne _ _ _ _ hne, getBoardCell_boardSet_self]
              simp
            · simp only [isPositionOnBoard]
              rw [getBoardCell_boardSet_ne _ _ _ _ hne, getBoardCell_boardSet_self]
              rfl
            · exact updateFirstPlayer_eq_map gs.players piece.ownerPlayerIndex
                fromPos toPos huniq
            · exact fun p k => updatePiecePosition_mem p fromPos toPos k

theorem spec_C7_witness :
    ((movePiece moveDemoState ⟨0, 0⟩ ⟨1, 0⟩).1 = true ↔
      (isPositionOnBoard moveDemoState.board ⟨0, 0⟩ = true ∧
       isPositionOccupied moveDemoState.board ⟨0, 0⟩ = true ∧
       isPositionOnBoard moveDemoState.board ⟨1, 0⟩ = true ∧
       isPositionOccupied moveDemoState.board ⟨1, 0⟩ = false)) ∧
    ((movePiece moveDemoState ⟨0, 0⟩ ⟨1, 0⟩).1 = false →
      (movePiece moveDemoState ⟨0, 0⟩ ⟨1, 0⟩).2.1 = moveDemoState ∧
      (movePiece moveDemoState ⟨0, 0⟩ ⟨1, 0⟩).2.2 = []) :=
  let h := spec_C7 moveDemoState ⟨0, 0⟩ ⟨1, 0⟩ (by decide)
  ⟨h.1, h.2.1⟩

-- ============================================================================
-- Claims C8 and C9: layout mapping, turn order, rotation
-- ============================================================================

/-- C8: for every player count the turn order is the fixed
clockwise-from-6-o'clock sequence `[3, 4, 5, 0, 1, 2]` filtered to the
active triangle indices; player count 3 activates triangles 1, 3, 5 and
yields exactly `[3, 5, 1]`. -/
theorem spec_C8 :
    (∀ playerCount : Nat,
      GameConfig.getTurnOrder (GameConfig.getPlayerTriangleIndices playerCount)
        = [3, 4, 5, 0, 1, 2].filter
            (fun idx => (GameConfig.getPlayerTriangleIndices playerCount).contains idx))
    ∧ GameConfig.getPlayerTriangleIndices 3 = [1, 3, 5]
    ∧ GameConfig.getTurnOrder (GameConfig.getPlayerTriangleIndices 3) = [3, 5, 1] := by
  refine ⟨fun playerCount => rfl, by decide, by decide⟩

/-- C9: for rotation counts 0..5, rotating counter-clockwise `(6 - N) % 6`
times realizes a clockwise rotation by `N` steps of 60 degrees, and
`generateTriangle N` is exactly the base triangle mapped through that pure
rotation (hence deterministic). -/
theorem spec_C9 (N : Nat) (hN : N < 6) :
    (∀ p : HexPosition, p.rotateN ((6 - N) % 6) = (HexPosition.rotate60CW)^[N] p)
    ∧ TriangleGenerator.generateTriangle N
        = TriangleGenerator.baseTriangle.map (fun p => (HexPosition.rotate60CW)^[N] p) := by
  have hrot : ∀ p : HexPosition, p.rotateN ((6 - N) % 6) = (HexPosition.rotate60CW)^[N] p := by
    intro p
    obtain ⟨q, r⟩ := p
    interval_cases N <;>
      simp [HexPosition.rotateN, HexPosition.rotate60CCW, HexPosition.rotate60CW,
        Function.iterate_succ, Function.iterate_zero] <;> omega
  refine ⟨hrot, ?_⟩
  unfold TriangleGenerator.generateTriangle
  exact List.map_congr_left (fun p _ => hrot p)

theorem spec_C9_witness :
    TriangleGenerator.generateTriangle 2
      = TriangleGenerator.baseTriangle.map (fun p => (HexPosition.rotate60CW)^[2] p) :=
  (spec_C9 2 (by decide)).2
